import Mathlib

/-!
# Jianpu (numbered notation) beam and note layout

A shallow embedding of `libmscore/jianpunote.cpp`, `libmscore/jianpubeam.cpp` and the note
loop of `libmscore/jianpuchord.cpp`.

* `qreal` is modelled as an exact rational number, `int` as an unbounded integer; the index
  arithmetic of `tpc2numberNoteByKey`, which is defined on every `int`, wraps at 32 bits.
* A call that trips an `assert`, reads a container outside its bounds, or exhausts the
  iteration budget of a modelled `while` loop yields an `Except.error`.
* Members of the object that a function reads or writes are fields of a structure; a
  function that mutates the object returns the updated structure.
-/

namespace Ms

/-- Qt's `qreal`, modelled as an exact rational. -/
abbrev qreal := ℚ

/-- The ways a modelled call can fail to return. -/
inductive Fault where
  /-- an `assert(...)` of the source evaluated to false -/
  | assertion
  /-- a container was read outside its bounds (`front()`, `at(i)`, `operator[]`) -/
  | outOfRange
  /-- a modelled `while` loop used up its iteration budget -/
  | fuel
deriving DecidableEq

deriving instance DecidableEq for Except

/-- Qt's `QPointF`. -/
structure QPointF where
  x : qreal
  y : qreal
deriving DecidableEq

/-- Qt's `QLineF(x1, y1, x2, y2)`. -/
structure QLineF where
  x1 : qreal
  y1 : qreal
  x2 : qreal
  y2 : qreal
deriving DecidableEq

/-- Qt's `QRectF(x, y, width, height)`. -/
structure QRectF where
  x : qreal
  y : qreal
  width : qreal
  height : qreal
deriving DecidableEq

namespace QRectF

/-- The default-constructed `QRectF()`. -/
def null : QRectF := ⟨0, 0, 0, 0⟩

/-- Qt's `QRectF::isNull`: width and height are both zero. -/
def isNull (r : QRectF) : Bool := r.width == 0 && r.height == 0

/-- Qt's `QRectF::top`. -/
def top (r : QRectF) : qreal := r.y

/-- Qt's `QRectF::bottom`. -/
def bottom (r : QRectF) : qreal := r.y + r.height

/-- Qt's `QRectF::left`. -/
def left (r : QRectF) : qreal := r.x

/-- Qt's `QRectF::right`. -/
def right (r : QRectF) : qreal := r.x + r.width

/-- Qt's `QRectF::operator|` (bounding rectangle of two rectangles), following `qrect.cpp`:
a null operand yields the other operand; otherwise both are normalised and spanned. -/
def united (a r : QRectF) : QRectF :=
  if a.isNull then r
  else if r.isNull then a
  else
    let left0 := if a.width < 0 then a.x + a.width else a.x
    let right0 := if a.width < 0 then a.x else a.x + a.width
    let left1 := if r.width < 0 then min left0 (r.x + r.width) else min left0 r.x
    let right1 := if r.width < 0 then max right0 r.x else max right0 (r.x + r.width)
    let top0 := if a.height < 0 then a.y + a.height else a.y
    let bottom0 := if a.height < 0 then a.y else a.y + a.height
    let top1 := if r.height < 0 then min top0 (r.y + r.height) else min top0 r.y
    let bottom1 := if r.height < 0 then max bottom0 r.y else max bottom0 (r.y + r.height)
    ⟨left1, top1, right1 - left1, bottom1 - top1⟩

end QRectF

/-- Modelled from the spec: `Element::addbbox` is declared in `element.h`, which is not
under src/; the spec says the call extends the aggregate bounding box to cover the given
rectangle, taken here as Qt's bounding-rectangle union `_bbox |= r`. -/
def Element.addbbox (bbox r : QRectF) : QRectF := bbox.united r

/-- The smallest value of a 32-bit `int`. -/
def INT_MIN : Int := -2147483648

/-- The largest value of a 32-bit `int`. -/
def INT_MAX : Int := 2147483647

/-- The value a 32-bit `int` holds when the exact result of an addition or subtraction is
`v`: two's-complement wrap-around into `INT_MIN .. INT_MAX`. -/
def wrapInt (v : Int) : Int := (v - INT_MIN) % 4294967296 + INT_MIN

/-- The exact value `v` is representable in a 32-bit `int`. -/
def fitsInt (v : Int) : Prop := INT_MIN ≤ v ∧ v ≤ INT_MAX

instance (v : Int) : Decidable (fitsInt v) := by
  unfold fitsInt
  infer_instance

/-- Reading `a[i]` of a C array or Qt container with an `int` index. -/
def arrayAt {α : Type} (a : List α) (i : Int) : Except Fault α :=
  if 0 ≤ i then
    match a[i.toNat]? with
    | some v => .ok v
    | none => .error .outOfRange
  else .error .outOfRange

/-- Modelled from the spec: `enum class Key` is declared in `key.h`, which is not under
src/. A key is its number of sharps: the fifteen keys run from C-flat (-7) to C-sharp (7),
with C major at 0 (the order of the comment above `keyNotePitch`). -/
abbrev Key := Int

namespace Key

/-- C-flat major, the first key. -/
def C_B : Key := -7

/-- C major. -/
def C : Key := 0

/-- C-sharp major, the last key. -/
def C_S : Key := 7

/-- `Key::MIN = Key::C_B`. -/
def MIN : Key := C_B

/-- `Key::MAX = Key::C_S`. -/
def MAX : Key := C_S

/-- `Key::NUM_OF = MAX - MIN + 1`. -/
def NUM_OF : Int := MAX - MIN + 1

end Key

/-- Modelled from the spec: `Tpc::TPC_MIN` is declared in `pitchspelling.h`, which is not
under src/. The tonal pitch classes of the natural notes F, C, G, D, A, E, B are 13 to 19,
and the smallest tonal pitch class (F double flat) is -1. -/
def Tpc.TPC_MIN : Int := -1

/-- Modelled from the spec: `PITCH_DELTA_OCTAVE` is declared in `pitchspelling.h`, which is
not under src/; the spec gives the octave pitch span as 12 semitones. -/
def PITCH_DELTA_OCTAVE : Int := 12

/-- Modelled from the spec: `STEP_DELTA_OCTAVE` is declared in `pitchspelling.h`, which is
not under src/; it is the length of the 7-entry degree table. -/
def STEP_DELTA_OCTAVE : Int := 7

/-- The `TDuration::DurationType` values (declared in `durationtype.h`). -/
inductive DurationType where
  | V_LONG | V_BREVE | V_WHOLE | V_HALF | V_QUARTER | V_EIGHTH | V_16TH | V_32ND | V_64TH
  | V_128TH | V_256TH | V_512TH | V_1024TH | V_ZERO | V_MEASURE | V_INVALID
deriving DecidableEq

/-- The members of a `JianpuNote` that the modelled functions read or write. -/
structure JianpuNote where
  /-- `pitch()` -/
  pitch : Int
  /-- `tpc()` -/
  tpc : Int
  /-- `staff()->key(tick)` when the note has a staff, `none` otherwise -/
  staffKey : Option Key
  /-- `chord()->durationType().type()` -/
  durationType : DurationType
  /-- `pos()` -/
  pos : QPointF
  /-- `bbox()` -/
  bbox : QRectF
  _noteNumber : Int
  _noteOctave : Int
  _durationDashCount : Int
  _noteNumberBox : QRectF
  _octaveDotBox : QRectF
deriving DecidableEq

namespace JianpuNote

def NOTE_BASELINE : Int := 0

/-- The source's `0.7f`, taken as the exact ratio 7/10. -/
def FONT_BBOX_HEIGHT_RATIO : qreal := 7 / 10

def MAX_OCTAVE_DOTS : Int := 4

def OCTAVE_DOT_WIDTH : Int := 10

def OCTAVE_DOT_HEIGHT : Int := 10

def OCTAVE_DOT_X_SPACE : Int := 3

def OCTAVE_DOT_Y_SPACE : Int := 3

def OCTAVE_DOTBOX_HEIGHT : Int := 2 * (OCTAVE_DOT_HEIGHT + OCTAVE_DOT_Y_SPACE)

def OCTAVE_DOTBOX_Y_OFFSET : Int := 10

def DURATION_DASH_X_SPACE : Int := 50

def DURATION_DASH_WIDTH : Int := 40

def DURATION_DASH_HEIGHT : Int := 8

def BEAM_HEIGHT : Int := 4

def BEAM_Y_SPACE : Int := 8

/-- The table `keyNotePitch` of `pitch2octaveByKey`, from C-flat to C-sharp. -/
def keyNotePitch : List Int :=
  [71, 66, 61, 68, 63, 70, 65, 60, 67, 62, 69, 64, 71, 66, 61]

/-- The table `numberNotes` of `tpc2numberNoteByKey`: F C G D A E B. -/
def numberNotes : List Int := [4, 1, 5, 2, 6, 3, 7]

/-- `JianpuNote::pitch2octaveByKey`; the `int` division `/` truncates toward zero. -/
def pitch2octaveByKey (pitch : Int) (key : Key) : Except Fault Int :=
  match arrayAt keyNotePitch (key - Key.MIN) with
  | .error e => .error e
  | .ok basePitch =>
    let octave := Int.tdiv (pitch - basePitch) PITCH_DELTA_OCTAVE
    if pitch < basePitch then .ok (octave - 1) else .ok octave

/-- The loop `while (index < 0) index += STEP_DELTA_OCTAVE;` of `tpc2numberNoteByKey`,
with an iteration budget. -/
def raiseIndex : Nat → Int → Except Fault Int
  | 0, index => if index < 0 then .error .fuel else .ok index
  | fuel + 1, index =>
    if index < 0 then raiseIndex fuel (index + STEP_DELTA_OCTAVE) else .ok index

/-- `JianpuNote::tpc2numberNoteByKey`; each `int` subtraction of
`(tpc - Tpc::TPC_MIN) - ((int) key - (int) Key::MIN)` wraps at 32 bits, and the `int`
remainder `%` truncates toward zero. The loop is given `|index|` iterations; inside it
`index` is negative, so `index += STEP_DELTA_OCTAVE` cannot overflow. -/
def tpc2numberNoteByKey (tpc : Int) (key : Key) : Except Fault Int :=
  let index := wrapInt (wrapInt (tpc - Tpc.TPC_MIN) - wrapInt (key - Key.MIN))
  match raiseIndex index.natAbs index with
  | .error e => .error e
  | .ok index1 => arrayAt numberNotes (Int.tmod index1 STEP_DELTA_OCTAVE)

/-- `JianpuNote::setNoteByNumber`. -/
def setNoteByNumber (n : JianpuNote) (number octave : Int) (duration : DurationType) :
    Except Fault JianpuNote :=
  if ¬ (1 ≤ number ∧ number ≤ 7) then .error .assertion
  else if ¬ (-MAX_OCTAVE_DOTS ≤ octave ∧ octave ≤ MAX_OCTAVE_DOTS) then .error .assertion
  else
    .ok { n with
      _noteNumber := number
      _noteOctave := octave
      _durationDashCount :=
        if duration = DurationType.V_WHOLE then 3
        else if duration = DurationType.V_HALF then 1
        else 0 }

/-- The key `staff() ? staff()->key(tick) : Key::C` that `setNoteByPitch` resolves. -/
def key (n : JianpuNote) : Key :=
  match n.staffKey with
  | some k => k
  | none => Key.C

/-- `JianpuNote::setNoteByPitch`. -/
def setNoteByPitch (n : JianpuNote) (pitch tpc : Int) (duration : DurationType) :
    Except Fault JianpuNote :=
  let key : Key := n.key
  match tpc2numberNoteByKey tpc key with
  | .error e => .error e
  | .ok number =>
    match pitch2octaveByKey pitch key with
    | .error e => .error e
    | .ok octave => setNoteByNumber n number octave duration

/-- `JianpuNote::layout`. The argument `tightBoundingRect` is the font-metrics provider:
the tight bounding rectangle of the digit string of a note number. -/
def layout (tightBoundingRect : Int → QRectF) (n : JianpuNote) : Except Fault JianpuNote :=
  match setNoteByPitch n n.pitch n.tpc n.durationType with
  | .error e => .error e
  | .ok n1 =>
    let rect := tightBoundingRect n1._noteNumber
    let noteNumberBox : QRectF := ⟨0, 0, rect.width, rect.height * FONT_BBOX_HEIGHT_RATIO⟩
    let octaveDotBox : QRectF :=
      if n1._noteOctave < 0 then
        ⟨0, noteNumberBox.y + noteNumberBox.height + OCTAVE_DOTBOX_Y_OFFSET,
          noteNumberBox.width, OCTAVE_DOTBOX_HEIGHT⟩
      else if n1._noteOctave > 0 then
        ⟨0, noteNumberBox.y - OCTAVE_DOTBOX_HEIGHT - OCTAVE_DOTBOX_Y_OFFSET,
          noteNumberBox.width, OCTAVE_DOTBOX_HEIGHT⟩
      else ⟨0, 0, 0, 0⟩
    .ok { n1 with
      _noteNumberBox := noteNumberBox
      _octaveDotBox := octaveDotBox
      bbox := noteNumberBox.united octaveDotBox }

end JianpuNote

/-- A `Note` of a chord as `JianpuBeam::layout` sees it: either a `JianpuNote`, or a note
of another class, for which `dynamic_cast<const JianpuNote*>` yields null. -/
inductive Note where
  | jianpu (jn : JianpuNote)
  | plain (pos : QPointF) (bbox : QRectF)
deriving DecidableEq

namespace Note

/-- `Note::pos()`. -/
def pos : Note → QPointF
  | jianpu jn => jn.pos
  | plain p _ => p

/-- `Note::bbox()`. -/
def bbox : Note → QRectF
  | jianpu jn => jn.bbox
  | plain _ b => b

end Note

/-- What a `ChordRest` is: a chord with its notes (`isChord()`), a rest (`isRest()`), or
neither. -/
inductive ChordRestKind where
  | chord (notes : List Note)
  | rest
  | other
deriving DecidableEq

/-- The members of a `ChordRest` that `JianpuBeam::layout` reads. -/
structure ChordRest where
  /-- `durationType().hooks()` -/
  hooks : Int
  /-- `pos()` -/
  pos : QPointF
  /-- `pageX()` -/
  pageX : qreal
  /-- `bbox()` -/
  bbox : QRectF
  kind : ChordRestKind
deriving DecidableEq

/-- The members of a `JianpuBeam` that `layout` reads or writes. -/
structure JianpuBeam where
  _elements : List ChordRest
  /-- `pagePos()`, once the beam's parent is the system of its first element -/
  pagePos : QPointF
  beamSegments : List QLineF
  /-- `bbox()` -/
  bbox : QRectF
deriving DecidableEq

/-- Record of one `beamSegments.push_back`: the level and the index range `(c1, c2)` it was
made for. -/
structure BeamRange where
  beamLevel : Int
  c1 : Nat
  c2 : Nat
deriving DecidableEq

/-- The state the loops of `JianpuBeam::layout` update: the segment list and the bounding
box of the beam, together with the log of the ranges emitted during the call. -/
structure LayoutState where
  beamSegments : List QLineF
  bbox : QRectF
  emitted : List BeamRange
deriving DecidableEq

namespace JianpuBeam

/-- Lines 54-56: the maximum of `durationType().hooks()` over the elements, at least 0. -/
def maxBeamLevel (elements : List ChordRest) : Int :=
  elements.foldl (fun beamLevels c => max beamLevels c.hooks) 0

/-- Lines 59-77: the y position of the first beam, from the first element `cr`. -/
def firstBeamY (cr : ChordRest) (pagePosition : QPointF) : Except Fault qreal :=
  match cr.kind with
  | .chord notes =>
    match notes[0]? with
    | none => .error .outOfRange
    | some note =>
      let y := note.pos.y + note.bbox.height
      match note with
      | .jianpu jn =>
        if jn._noteOctave ≥ 0 then
          .ok (y + ((JianpuNote.OCTAVE_DOTBOX_Y_OFFSET + JianpuNote.OCTAVE_DOTBOX_HEIGHT : Int) : qreal))
        else .ok y
      | .plain _ _ => .ok y
  | .rest =>
    let y := cr.pos.y + cr.bbox.height
    .ok (y + ((JianpuNote.OCTAVE_DOTBOX_Y_OFFSET + JianpuNote.OCTAVE_DOTBOX_HEIGHT : Int) : qreal))
  | .other => .ok (cr.pos.y - pagePosition.y)

/-- Lines 101-109: the inner loop `while (j < n)`, which stops at the first `j` whose level
`hooks() - 1` is below `beamLevel`, or at `n`. -/
def groupEnd (elements : List ChordRest) (beamLevel : Int) : Nat → Nat → Except Fault Nat
  | 0, _ => .error .fuel
  | fuel + 1, j =>
    if h : j < elements.length then
      let cr2 := elements[j]
      let l2 := cr2.hooks - 1
      if l2 < beamLevel then .ok j
      else groupEnd elements beamLevel fuel (j + 1)
    else .ok j

/-- Lines 90-125: the loop `while (i < n)` of one beam level, at height `y`. -/
def groupLoop (elements : List ChordRest) (pagePosition : QPointF) (beamDistance : qreal)
    (beamLevel : Int) (y : qreal) : Nat → Nat → LayoutState → Except Fault LayoutState
  | 0, _, _ => .error .fuel
  | fuel + 1, i, st =>
    if h : i < elements.length then
      let cr1 := elements[i]
      let l1 := cr1.hooks - 1
      if l1 < beamLevel then
        groupLoop elements pagePosition beamDistance beamLevel y fuel (i + 1) st
      else
        let c1 := i
        match groupEnd elements beamLevel (elements.length + 1) (i + 1) with
        | .error e => .error e
        | .ok j =>
          let c2 := j - 1
          match elements[c1]?, elements[c2]? with
          | some cr1, some cr2 =>
            let x1 := cr1.pos.x + cr1.pageX - pagePosition.x
            let x2 := cr2.pos.x + cr2.pageX - pagePosition.x + cr2.bbox.width
            groupLoop elements pagePosition beamDistance beamLevel y fuel j
              { beamSegments := st.beamSegments ++ [⟨x1, y, x2, y⟩]
                bbox := Element.addbbox st.bbox ⟨x1, y, x2 - x1, beamDistance⟩
                emitted := st.emitted ++ [⟨beamLevel, c1, c2⟩] }
          | _, _ => .error .outOfRange
    else .ok st

/-- Lines 86-129: the loop over the beam levels; `count` levels remain, the next one is
`beamLevel` at height `y`. -/
def levelLoop (elements : List ChordRest) (pagePosition : QPointF) (beamDistance : qreal) :
    Nat → Int → qreal → LayoutState → Except Fault LayoutState
  | 0, _, _, st => .ok st
  | count + 1, beamLevel, y, st =>
    match groupLoop elements pagePosition beamDistance beamLevel y (elements.length + 1) 0 st with
    | .error e => .error e
    | .ok st1 =>
      levelLoop elements pagePosition beamDistance count (beamLevel + 1) (y + beamDistance) st1

/-- `JianpuBeam::layout`, returning the state of the loops at the end of the call. Line 47
reads `_elements.front()` without a check; on a group without elements that read has no
defined result in the source, and the embedding yields no state for it. -/
def layoutState (b : JianpuBeam) : Except Fault LayoutState :=
  match b._elements.head? with
  | none => .error .outOfRange
  | some cr =>
    let pagePosition := b.pagePos
    let beamLevels := maxBeamLevel b._elements
    match firstBeamY cr pagePosition with
    | .error e => .error e
    | .ok y =>
      let beamDistance : qreal := ((JianpuNote.BEAM_HEIGHT + JianpuNote.BEAM_Y_SPACE : Int) : qreal)
      levelLoop b._elements pagePosition beamDistance beamLevels.toNat 0 y
        { beamSegments := b.beamSegments, bbox := QRectF.null, emitted := [] }

/-- `JianpuBeam::layout`: the beam after the call. -/
def layout (b : JianpuBeam) : Except Fault JianpuBeam :=
  match layoutState b with
  | .error e => .error e
  | .ok st => .ok { b with beamSegments := st.beamSegments, bbox := st.bbox }

end JianpuBeam

/-! ## Vocabulary of the statements -/

/-- One iteration of lines 111-121: the range it found, the segment it pushed and the
rectangle it added to the bounding box. -/
structure Emission where
  range : BeamRange
  line : QLineF
  rect : QRectF
deriving DecidableEq

/-- The state after the emissions `es` have been applied to `st`, in order. -/
def LayoutState.apply (st : LayoutState) (es : List Emission) : LayoutState :=
  { beamSegments := st.beamSegments ++ es.map Emission.line
    bbox := es.foldl (fun bbox e => Element.addbbox bbox e.rect) st.bbox
    emitted := st.emitted ++ es.map Emission.range }

/-- Index `i` is an element of the group whose level depth `hooks()` exceeds `L`. -/
def deeper (elements : List ChordRest) (L : Int) (i : Nat) : Prop :=
  ∃ cr, elements[i]? = some cr ∧ L < cr.hooks

/-- The emission `e` is what lines 111-121 produce at height `y` for its range: the segment
runs from the left edge of element `c1` to the right edge of element `c2`, both relative to
the page position of the beam, and the rectangle spans the segment and `beamDistance`. -/
def EmissionAt (elements : List ChordRest) (pagePosition : QPointF) (beamDistance y : qreal)
    (e : Emission) : Prop :=
  ∃ cr1 cr2, elements[e.range.c1]? = some cr1 ∧ elements[e.range.c2]? = some cr2
    ∧ e.line = ⟨cr1.pos.x + cr1.pageX - pagePosition.x, y,
        cr2.pos.x + cr2.pageX - pagePosition.x + cr2.bbox.width, y⟩
    ∧ e.rect = ⟨cr1.pos.x + cr1.pageX - pagePosition.x, y,
        (cr2.pos.x + cr2.pageX - pagePosition.x + cr2.bbox.width)
          - (cr1.pos.x + cr1.pageX - pagePosition.x), beamDistance⟩

/-- The list `rs` of index ranges `(c1, c2)` consists of the maximal contiguous runs, from
index `i` on, of the indices deeper than `L`: every index of a range is deeper than `L`,
every such index from `i` on lies in a range, and the ranges come in increasing order with
at least one index between two of them. -/
structure IsRunsFrom (elements : List ChordRest) (L : Int) (i : Nat)
    (rs : List (Nat × Nat)) : Prop where
  inside : ∀ r ∈ rs, i ≤ r.1 ∧ r.1 ≤ r.2 ∧ ∀ k, r.1 ≤ k → k ≤ r.2 → deeper elements L k
  covered : ∀ k, i ≤ k → deeper elements L k → ∃ r ∈ rs, r.1 ≤ k ∧ k ≤ r.2
  ordered : rs.Pairwise (fun r s => r.2 + 1 < s.1)

/-- The index ranges `layout` emitted at level `L`, in the order of emission. -/
def rangesAt (emitted : List BeamRange) (L : Int) : List (Nat × Nat) :=
  (emitted.filter (fun r => r.beamLevel = L)).map (fun r => (r.c1, r.c2))

/-! ## Example groups -/

/-- A rest of level depth `hooks` with a 10 by 14 box, at x position `x` in a measure whose
page x is 100. -/
def exampleRest (hooks : Int) (x : qreal) : ChordRest :=
  ⟨hooks, ⟨x, 0⟩, 100, ⟨0, 0, 10, 14⟩, .rest⟩

/-- A group of four rests with level depths 1, 1, 0, 1, no segment yet, beam at page
position (100, 5). -/
def exampleGroup : JianpuBeam :=
  ⟨[exampleRest 1 0, exampleRest 1 20, exampleRest 0 40, exampleRest 1 60], ⟨100, 5⟩, [],
    QRectF.null⟩

/-- A group of one rest of level depth 2, no segment yet. -/
def exampleSingle : JianpuBeam :=
  ⟨[exampleRest 2 0], ⟨100, 5⟩, [], QRectF.null⟩

/-- A group of one rest of level depth 1 that holds a segment and a bounding box from an
earlier pass. -/
def exampleStale : JianpuBeam :=
  ⟨[exampleRest 1 0], ⟨100, 5⟩, [⟨0, 50, 40, 50⟩], ⟨0, 50, 40, 12⟩⟩

/-- A font whose digits all have a tight bounding rectangle of 10 by 20. -/
def exampleFont : Int → QRectF := fun _ => ⟨0, 0, 10, 20⟩

/-- A note in C major at position (0, 0) that has not been laid out yet. -/
def exampleNote (pitch tpc : Int) : JianpuNote :=
  ⟨pitch, tpc, some Key.C, .V_EIGHTH, ⟨0, 0⟩, QRectF.null, 0, 0, 0, QRectF.null, QRectF.null⟩

/-- The C above middle C (pitch 72) after `JianpuNote::layout`: degree 1, octave 1. -/
def exampleHigh : JianpuNote :=
  ⟨72, 14, some Key.C, .V_EIGHTH, ⟨0, 0⟩, ⟨0, -36, 10, 50⟩, 1, 1, 0, ⟨0, 0, 10, 14⟩,
    ⟨0, -36, 10, 26⟩⟩

/-- Middle C (pitch 60) after `JianpuNote::layout`: degree 1, octave 0. -/
def exampleMiddle : JianpuNote :=
  ⟨60, 14, some Key.C, .V_EIGHTH, ⟨0, 0⟩, ⟨0, 0, 10, 14⟩, 1, 0, 0, ⟨0, 0, 10, 14⟩,
    ⟨0, 0, 0, 0⟩⟩

/-- The B below middle C (pitch 59) after `JianpuNote::layout`: degree 7, octave -1. -/
def exampleLow : JianpuNote :=
  ⟨59, 19, some Key.C, .V_EIGHTH, ⟨0, 0⟩, ⟨0, 0, 10, 50⟩, 7, -1, 0, ⟨0, 0, 10, 14⟩,
    ⟨0, 24, 10, 26⟩⟩

/-- An eighth chord made of the single note `n`. -/
def exampleChord (n : JianpuNote) : ChordRest :=
  ⟨1, ⟨0, 0⟩, 100, n.bbox, .chord [.jianpu n]⟩

/-! ## Painting a note -/

/-- What `JianpuNote::draw` asks of the painter, in order: a text (the digit of the note
number) at a point, an ellipse (an octave dot) or a filled rectangle (a duration dash). -/
inductive DrawCommand where
  | drawText (p : QPointF) (number : Int)
  | drawEllipse (r : QRectF)
  | fillRect (r : QRectF)
deriving DecidableEq

namespace JianpuNote

/-- Modelled from the spec: `Note::setPitch` is defined in `note.cpp`, which is not under
src/; it is taken to store the value as the pitch of the note (the spec has the mapping
recomputed whenever the pitch changes). -/
def Note_setPitch (n : JianpuNote) (val : Int) : JianpuNote :=
  { n with pitch := val }

/-- `JianpuNote::setPitch`. -/
def setPitch (n : JianpuNote) (val : Int) : Except Fault JianpuNote :=
  if ¬ (0 ≤ val ∧ val ≤ 127) then .error .assertion
  else if n.pitch ≠ val then
    let n1 := Note_setPitch n val
    setNoteByPitch n1 n1.pitch n1.tpc n1.durationType
  else .ok n

/-- Lines 262-266 of `JianpuNote::draw`: the loop `for (i = 0; i < _durationDashCount; i++)`
with `count` iterations left and the next dash at `x`. -/
def dashLoop (y width height space : qreal) : Nat → qreal → List DrawCommand
  | 0, _ => []
  | count + 1, x =>
    DrawCommand.fillRect ⟨x, y, width, height⟩
      :: dashLoop y width height space count (x + (width + space))

/-- `JianpuNote::draw`: the commands sent to the painter. The arguments are `hidden()`,
whether `this == chord()->downNote()`, and `spatium()`. -/
def draw (n : JianpuNote) (hidden isDownNote : Bool) (spatium : qreal) : List DrawCommand :=
  if hidden then []
  else
    let text : List DrawCommand :=
      [.drawText ⟨n.pos.x + n._noteNumberBox.x,
        n.pos.y + n._noteNumberBox.y + n._noteNumberBox.height⟩ n._noteNumber]
    let dots : List DrawCommand :=
      if n._noteOctave < 0 then
        let xOffset := (n._octaveDotBox.width - (OCTAVE_DOT_WIDTH : qreal)) * (1 / 2)
        [.drawEllipse ⟨n.pos.x + n._octaveDotBox.x + xOffset, n.pos.y + n._octaveDotBox.y,
          OCTAVE_DOT_WIDTH, OCTAVE_DOT_HEIGHT⟩]
      else if n._noteOctave > 0 then
        let xOffset := (n._octaveDotBox.width - (OCTAVE_DOT_WIDTH : qreal)) * (1 / 2)
        [.drawEllipse ⟨n.pos.x + n._octaveDotBox.x + xOffset, n.pos.y + n._octaveDotBox.y,
          OCTAVE_DOT_WIDTH, OCTAVE_DOT_HEIGHT⟩]
      else []
    let dashes : List DrawCommand :=
      if n._durationDashCount > 0 ∧ isDownNote = true then
        let space : qreal := DURATION_DASH_X_SPACE
        let width : qreal := DURATION_DASH_WIDTH
        let height : qreal := DURATION_DASH_HEIGHT
        let x := n.pos.x + n.bbox.width + space
        let y := (NOTE_BASELINE : qreal) * spatium * (1 / 2) + n._noteNumberBox.height * (1 / 2)
        dashLoop y width height space n._durationDashCount.toNat x
      else []
    text ++ dots ++ dashes

end JianpuNote

/-- The rectangles of the `fillRect` commands, in order: the duration dashes a note draws. -/
def dashRects : List DrawCommand → List QRectF
  | [] => []
  | .fillRect r :: cmds => r :: dashRects cmds
  | _ :: cmds => dashRects cmds

/-- Rectangle `a` covers rectangle `r`: no edge of `r` lies outside `a`. -/
def QRectF.covers (a r : QRectF) : Prop :=
  a.left ≤ r.left ∧ r.right ≤ a.right ∧ a.top ≤ r.top ∧ r.bottom ≤ a.bottom

/-- The rectangle lines 120-121 add to the bounding box for the segment `s`. -/
def segmentRect (s : QLineF) : QRectF :=
  ⟨s.x1, s.y1, s.x2 - s.x1, ((JianpuNote.BEAM_HEIGHT + JianpuNote.BEAM_Y_SPACE : Int) : qreal)⟩

/-- A group of five rests with level depths 2, 1, 2, 0, 1, no segment yet. -/
def exampleNested : JianpuBeam :=
  ⟨[exampleRest 2 0, exampleRest 1 20, exampleRest 2 40, exampleRest 0 60, exampleRest 1 80],
    ⟨100, 5⟩, [], QRectF.null⟩

/-- A group of two quarter rests (level depth 0), no segment yet. -/
def exampleFlat : JianpuBeam :=
  ⟨[exampleRest 0 0, exampleRest 0 20], ⟨100, 5⟩, [], QRectF.null⟩

/-- A group of two quarter rests (level depth 0) that holds a segment and a bounding box
from an earlier pass. -/
def exampleFlatStale : JianpuBeam :=
  ⟨[exampleRest 0 0, exampleRest 0 20], ⟨100, 5⟩, [⟨0, 50, 40, 50⟩], ⟨0, 50, 40, 12⟩⟩

/-- A whole note in C major (middle C) after `JianpuNote::layout`: three duration dashes. -/
def exampleWhole : JianpuNote :=
  ⟨60, 14, some Key.C, .V_WHOLE, ⟨0, 0⟩, ⟨0, 0, 10, 14⟩, 1, 0, 3, ⟨0, 0, 10, 14⟩,
    ⟨0, 0, 0, 0⟩⟩

/-! ## Positioning the notes of a chord -/

/-- Modelled from the spec: `Element::height` is declared in `element.h`, which is not under
src/; it is the height of the bounding box of the element. -/
def JianpuNote.height (n : JianpuNote) : qreal := n.bbox.height

namespace JianpuChord

/-- Lines 132-133 of `JianpuChord::layout`: the loop
`for (int j = 1; j <= i; j++) y -= _notes.at(j)->height();`, with `count` iterations left
and the next index `j`. -/
def subtractHeights (notes : List JianpuNote) : Nat → Nat → qreal → Except Fault qreal
  | 0, _, y => .ok y
  | count + 1, j, y =>
    match notes[j]? with
    | none => .error .outOfRange
    | some note => subtractHeights notes count (j + 1) (y - note.height)

/-- Lines 124-134 of `JianpuChord::layout`: the loop over the notes, with `count` iterations
left and the next index `i`; each note is laid out and then positioned. -/
def noteLoop (tightBoundingRect : Int → QRectF) (spatium : qreal) :
    Nat → Nat → List JianpuNote → Except Fault (List JianpuNote)
  | 0, _, notes => .ok notes
  | count + 1, i, notes =>
    match notes[i]? with
    | none => .error .outOfRange
    | some note =>
      match JianpuNote.layout tightBoundingRect note with
      | .error e => .error e
      | .ok note1 =>
        let notes1 := notes.set i note1
        let x : qreal := 0
        match subtractHeights notes1 i 1
            ((JianpuNote.NOTE_BASELINE : qreal) * spatium * (1 / 2)) with
        | .error e => .error e
        | .ok y =>
          noteLoop tightBoundingRect spatium count (i + 1)
            (notes1.set i { note1 with pos := ⟨x, y⟩ })

/-- The part of `JianpuChord::layout` that lays out and positions the notes of the chord
(lines 84-85 and 123-134): the notes `_notes` after the call. The arguments are the
font-metrics provider of `JianpuNote::layout` and `spatium()`. -/
def layout (tightBoundingRect : Int → QRectF) (spatium : qreal) (_notes : List JianpuNote) :
    Except Fault (List JianpuNote) :=
  if _notes.isEmpty then .ok _notes
  else noteLoop tightBoundingRect spatium _notes.length 0 _notes

end JianpuChord

/-- The sum of the bounding-box heights of the notes 1 to `i` of a chord. -/
def heightsAbove (notes : List JianpuNote) (i : Nat) : qreal :=
  (((notes.drop 1).take i).map (fun a => a.bbox.height)).sum

/-- A chord of three notes in C major that have not been laid out: middle C, the E above
it and the C one octave higher. -/
def exampleTriad : List JianpuNote :=
  [exampleNote 60 14, exampleNote 64 18, exampleNote 72 14]

end Ms

namespace Ms

namespace JianpuNote

/-- The loop of `tpc2numberNoteByKey` returns within `|index|` iterations, with a
non-negative index congruent to the one it started from. -/
theorem raiseIndex_ok (fuel : Nat) : ∀ index : Int, (-index).toNat ≤ fuel →
    ∃ r, raiseIndex fuel index = .ok r ∧ 0 ≤ r ∧ r % 7 = index % 7 := by
  induction fuel with
  | zero =>
    intro index h
    have h0 : ¬ index < 0 := by omega
    exact ⟨index, by simp [raiseIndex, h0], by omega, rfl⟩
  | succ fuel ih =>
    intro index h
    by_cases h0 : index < 0
    · obtain ⟨r, hr, hr0, hr7⟩ :=
        ih (index + STEP_DELTA_OCTAVE) (by simp only [STEP_DELTA_OCTAVE]; omega)
      refine ⟨r, by simp [raiseIndex, h0, hr], hr0, ?_⟩
      rw [hr7]; simp only [STEP_DELTA_OCTAVE]; omega
    · exact ⟨index, by simp [raiseIndex, h0], by omega, rfl⟩

/-- Every in-range read of the degree table yields a degree between 1 and 7. -/
theorem arrayAt_numberNotes (k : Int) (h0 : 0 ≤ k) (h7 : k < 7) :
    ∃ d, arrayAt numberNotes k = .ok d ∧ 1 ≤ d ∧ d ≤ 7 := by
  have : k = 0 ∨ k = 1 ∨ k = 2 ∨ k = 3 ∨ k = 4 ∨ k = 5 ∨ k = 6 := by omega
  rcases this with h | h | h | h | h | h | h <;> subst h <;>
    exact ⟨_, rfl, by decide, by decide⟩

/-- A value representable in a 32-bit `int` is left unchanged by the wrap-around. -/
theorem wrapInt_of_fitsInt (v : Int) (h : fitsInt v) : wrapInt v = v := by
  obtain ⟨h1, h2⟩ := h
  simp only [INT_MIN, INT_MAX] at h1 h2
  simp only [wrapInt, INT_MIN]
  omega

/-- The degree is the table entry at the non-negative remainder of the wrapped index. -/
theorem tpc2numberNoteByKey_index (tpc : Int) (key : Key) :
    tpc2numberNoteByKey tpc key
      = arrayAt numberNotes
          (wrapInt (wrapInt (tpc - Tpc.TPC_MIN) - wrapInt (key - Key.MIN)) % 7) := by
  obtain ⟨r, hr, hr0, hr7⟩ := raiseIndex_ok
    (wrapInt (wrapInt (tpc - Tpc.TPC_MIN) - wrapInt (key - Key.MIN))).natAbs
    (wrapInt (wrapInt (tpc - Tpc.TPC_MIN) - wrapInt (key - Key.MIN))) (by omega)
  simp only [tpc2numberNoteByKey, hr, STEP_DELTA_OCTAVE]
  rw [Int.tmod_eq_emod hr0 (by norm_num), hr7]

/-- For every `tpc` and `key` the call returns a degree between 1 and 7. -/
theorem tpc2numberNoteByKey_degree (tpc : Int) (key : Key) :
    ∃ d, tpc2numberNoteByKey tpc key = .ok d ∧ 1 ≤ d ∧ d ≤ 7 := by
  rw [tpc2numberNoteByKey_index]
  exact arrayAt_numberNotes _ (Int.emod_nonneg _ (by norm_num))
    (Int.emod_lt_of_pos _ (by norm_num))

/-- Where no subtraction of the index computation overflows, the degree is the table entry
at the non-negative remainder of the exact index. -/
theorem tpc2numberNoteByKey_eq (tpc : Int) (key : Key)
    (h1 : fitsInt (tpc - Tpc.TPC_MIN)) (h2 : fitsInt (key - Key.MIN))
    (h3 : fitsInt ((tpc - Tpc.TPC_MIN) - (key - Key.MIN))) :
    tpc2numberNoteByKey tpc key
      = arrayAt numberNotes (((tpc - Tpc.TPC_MIN) - (key - Key.MIN)) % 7) := by
  rw [tpc2numberNoteByKey_index, wrapInt_of_fitsInt _ h1, wrapInt_of_fitsInt _ h2,
    wrapInt_of_fitsInt _ h3]

/-- At a key whose table entry is `basePitch`, the computed octave is the floor of
`(pitch - basePitch) / 12`, except for a pitch a whole number of octaves below
`basePitch`, where it is one less. -/
theorem pitch2octaveByKey_eq (pitch : Int) (key : Key) (basePitch : Int)
    (hb : arrayAt keyNotePitch (key - Key.MIN) = .ok basePitch) :
    pitch2octaveByKey pitch key
      = .ok (if pitch < basePitch ∧ (pitch - basePitch) % 12 = 0
          then (pitch - basePitch) / 12 - 1 else (pitch - basePitch) / 12) := by
  simp only [pitch2octaveByKey, hb, PITCH_DELTA_OCTAVE]
  by_cases hlt : pitch < basePitch
  · have hneg : Int.tdiv (pitch - basePitch) 12 = -((basePitch - pitch) / 12) := by
      have h1 : pitch - basePitch = -(basePitch - pitch) := by ring
      rw [h1, Int.neg_tdiv, Int.tdiv_eq_ediv (by omega) (by norm_num)]
    simp only [hlt, if_true, true_and, hneg]
    congr 1
    split <;> omega
  · simp only [hlt, if_false, false_and]
    rw [Int.tdiv_eq_ediv (by omega) (by norm_num)]

/-- C5 (the code at the failing input): in C major the reference pitch is 60, and for
pitch 48, exactly one octave below it, `pitch2octaveByKey` returns -2, while the floor of
`(48 - 60) / 12` is -1; one semitone higher, pitch 49 is in octave -1. -/
theorem pitch2octaveByKey_exact_octave_below :
    arrayAt keyNotePitch (Key.C - Key.MIN) = .ok 60
      ∧ pitch2octaveByKey 48 Key.C = .ok (-2)
      ∧ Int.fdiv (48 - 60) PITCH_DELTA_OCTAVE = -1
      ∧ pitch2octaveByKey 49 Key.C = .ok (-1) := by
  decide

/-- C6: in C major (reference pitch 60), pitch 59 is in octave -1, pitch 60 in octave 0 and
pitch 72 in octave 1. -/
theorem pitch2octaveByKey_C_major_boundary :
    arrayAt keyNotePitch (Key.C - Key.MIN) = .ok 60
      ∧ pitch2octaveByKey 59 Key.C = .ok (-1)
      ∧ pitch2octaveByKey 60 Key.C = .ok 0
      ∧ pitch2octaveByKey 72 Key.C = .ok 1 := by
  decide

/-- C7: in C major (`Key::C = 0`) the tonal pitch classes 13 to 19 of F, C, G, D, A, E, B
map to the degrees 4, 1, 5, 2, 6, 3, 7. -/
theorem tpc2numberNoteByKey_C_major :
    Key.C = 0
      ∧ tpc2numberNoteByKey 13 Key.C = .ok 4
      ∧ tpc2numberNoteByKey 14 Key.C = .ok 1
      ∧ tpc2numberNoteByKey 15 Key.C = .ok 5
      ∧ tpc2numberNoteByKey 16 Key.C = .ok 2
      ∧ tpc2numberNoteByKey 17 Key.C = .ok 6
      ∧ tpc2numberNoteByKey 18 Key.C = .ok 3
      ∧ tpc2numberNoteByKey 19 Key.C = .ok 7 := by
  decide

/-- C8 (amended): for every `tpc` and `key`, `tpc2numberNoteByKey` returns (the loop ends
within its budget) a degree between 1 and 7. Whenever no `int` subtraction of
`(tpc - TPC_MIN) - (key - Key::MIN)` overflows, also when that difference is negative, the
result is the entry of the table 4, 1, 5, 2, 6, 3, 7 at the non-negative remainder of the
difference modulo 7; among such inputs it is determined by the remainder of `tpc - key`
modulo 7 (so adding 7 to `tpc`, or the same amount to `tpc` and `key`, does not change it),
and it is the degree of that remainder in C major. -/
theorem tpc2numberNoteByKey_table (tpc : Int) (key : Key)
    (h1 : fitsInt (tpc - Tpc.TPC_MIN)) (h2 : fitsInt (key - Key.MIN))
    (h3 : fitsInt ((tpc - Tpc.TPC_MIN) - (key - Key.MIN))) :
    (∀ (t : Int) (k : Key), ∃ d, tpc2numberNoteByKey t k = .ok d ∧ 1 ≤ d ∧ d ≤ 7)
      ∧ tpc2numberNoteByKey tpc key
          = arrayAt numberNotes (((tpc - Tpc.TPC_MIN) - (key - Key.MIN)) % 7)
      ∧ (∀ (tpc2 : Int) (key2 : Key), fitsInt (tpc2 - Tpc.TPC_MIN) → fitsInt (key2 - Key.MIN)
          → fitsInt ((tpc2 - Tpc.TPC_MIN) - (key2 - Key.MIN))
          → (tpc2 - key2) % 7 = (tpc - key) % 7
          → tpc2numberNoteByKey tpc2 key2 = tpc2numberNoteByKey tpc key)
      ∧ tpc2numberNoteByKey tpc key = tpc2numberNoteByKey ((tpc - key) % 7) Key.C := by
  refine ⟨tpc2numberNoteByKey_degree, tpc2numberNoteByKey_eq tpc key h1 h2 h3, ?_, ?_⟩
  · intro tpc2 key2 g1 g2 g3 hmod
    rw [tpc2numberNoteByKey_eq tpc2 key2 g1 g2 g3, tpc2numberNoteByKey_eq tpc key h1 h2 h3]
    congr 1
    omega
  · have hlo : 0 ≤ (tpc - key) % 7 := Int.emod_nonneg _ (by norm_num)
    have hhi : (tpc - key) % 7 < 7 := Int.emod_lt_of_pos _ (by norm_num)
    have hk : Key.C - Key.MIN = 7 := rfl
    have hm : Tpc.TPC_MIN = -1 := rfl
    rw [tpc2numberNoteByKey_eq tpc key h1 h2 h3,
      tpc2numberNoteByKey_eq ((tpc - key) % 7) Key.C
        (by simp only [fitsInt, INT_MIN, INT_MAX, hm]; omega)
        (by simp only [fitsInt, INT_MIN, INT_MAX, hk]; omega)
        (by simp only [fitsInt, INT_MIN, INT_MAX, hk, hm]; omega)]
    congr 1
    simp only [Tpc.TPC_MIN, Key.MIN, Key.C_B, Key.C]
    omega

/-- C8 witness: tonal pitch class -1 in the key of C-sharp (7) has the negative index
difference `0 - 14`; the call returns the entry at its non-negative remainder 0, which is
4, and so does tonal pitch class 6 in the same key. -/
theorem tpc2numberNoteByKey_table_witness :
    fitsInt (-1 - Tpc.TPC_MIN) ∧ fitsInt (Key.C_S - Key.MIN)
      ∧ fitsInt ((-1 - Tpc.TPC_MIN) - (Key.C_S - Key.MIN))
      ∧ (-1 - Tpc.TPC_MIN) - (Key.C_S - Key.MIN) = -14
      ∧ tpc2numberNoteByKey (-1) Key.C_S
          = arrayAt numberNotes (((-1 - Tpc.TPC_MIN) - (Key.C_S - Key.MIN)) % 7)
      ∧ arrayAt numberNotes (((-1 - Tpc.TPC_MIN) - (Key.C_S - Key.MIN)) % 7) = .ok 4
      ∧ tpc2numberNoteByKey 6 Key.C_S = tpc2numberNoteByKey (-1) Key.C_S :=
  have hw := tpc2numberNoteByKey_table (-1) Key.C_S (by decide) (by decide) (by decide)
  ⟨by decide, by decide, by decide, by decide, hw.2.1, by decide,
    hw.2.2.1 6 Key.C_S (by decide) (by decide) (by decide) (by decide)⟩

/-- C8 (at the failing input): at `tpc = INT_MAX` in the key of C-flat (`Key::MIN`) the
subtraction `tpc - TPC_MIN` wraps to `INT_MIN`, the loop raises the index to 5 and the call
returns the entry there, 3; the exact difference `(tpc - TPC_MIN) - (key - Key::MIN)` is
2147483648, whose non-negative remainder modulo 7 is 2, with the entry 5. Seven below,
`tpc = 2147483640` gives 5, so adding 7 to `tpc` changes the result. -/
theorem tpc2numberNoteByKey_wraps_at_int_max :
    INT_MAX = 2147483647
      ∧ wrapInt (INT_MAX - Tpc.TPC_MIN) = INT_MIN
      ∧ tpc2numberNoteByKey INT_MAX Key.C_B = .ok 3
      ∧ arrayAt numberNotes (((INT_MAX - Tpc.TPC_MIN) - (Key.C_B - Key.MIN)) % 7) = .ok 5
      ∧ tpc2numberNoteByKey INT_MAX Key.C_B
          ≠ arrayAt numberNotes (((INT_MAX - Tpc.TPC_MIN) - (Key.C_B - Key.MIN)) % 7)
      ∧ tpc2numberNoteByKey (INT_MAX - 7) Key.C_B = .ok 5
      ∧ tpc2numberNoteByKey (INT_MAX - 7 + 7) Key.C_B
          ≠ tpc2numberNoteByKey (INT_MAX - 7) Key.C_B := by
  have h3 : tpc2numberNoteByKey INT_MAX Key.C_B = .ok 3 := by
    rw [tpc2numberNoteByKey_index]
    decide
  have h5 : tpc2numberNoteByKey (INT_MAX - 7) Key.C_B = .ok 5 := by
    rw [tpc2numberNoteByKey_index]
    decide
  have h7 : INT_MAX - 7 + 7 = INT_MAX := by decide
  refine ⟨rfl, by decide, h3, by decide, ?_, h5, ?_⟩
  · rw [h3]
    decide
  · rw [h7, h3, h5]
    decide

end JianpuNote

end Ms

namespace Ms

namespace JianpuNote

/-- What `setNoteByPitch` stores on success: the degree and the octave computed from the
pitch, the tonal pitch class and the key; the other members keep their values. -/
theorem setNoteByPitch_ok (n n1 : JianpuNote) (pitch tpc : Int) (duration : DurationType)
    (h : setNoteByPitch n pitch tpc duration = .ok n1) :
    tpc2numberNoteByKey tpc n.key = .ok n1._noteNumber
      ∧ pitch2octaveByKey pitch n.key = .ok n1._noteOctave
      ∧ n1.pos = n.pos ∧ n1.staffKey = n.staffKey := by
  simp only [setNoteByPitch] at h
  split at h
  · cases h
  · rename_i number hnum
    split at h
    · cases h
    · rename_i octave hoct
      simp only [setNoteByNumber] at h
      split at h
      · cases h
      · split at h
        · cases h
        · cases h
          exact ⟨hnum, hoct, rfl, rfl⟩

/-- The boxes `layout` computes, in terms of the note `setNoteByPitch` returns. -/
theorem layout_ok (tightBoundingRect : Int → QRectF) (n n2 : JianpuNote)
    (h : layout tightBoundingRect n = .ok n2) :
    ∃ n1, setNoteByPitch n n.pitch n.tpc n.durationType = .ok n1
      ∧ n2._noteOctave = n1._noteOctave
      ∧ n2.pos = n1.pos
      ∧ n2._noteNumberBox
          = ⟨0, 0, (tightBoundingRect n1._noteNumber).width,
              (tightBoundingRect n1._noteNumber).height * FONT_BBOX_HEIGHT_RATIO⟩
      ∧ n2._octaveDotBox
          = (if n1._noteOctave < 0 then
              ⟨0, n2._noteNumberBox.y + n2._noteNumberBox.height + OCTAVE_DOTBOX_Y_OFFSET,
                n2._noteNumberBox.width, OCTAVE_DOTBOX_HEIGHT⟩
            else if n1._noteOctave > 0 then
              ⟨0, n2._noteNumberBox.y - OCTAVE_DOTBOX_HEIGHT - OCTAVE_DOTBOX_Y_OFFSET,
                n2._noteNumberBox.width, OCTAVE_DOTBOX_HEIGHT⟩
            else ⟨0, 0, 0, 0⟩)
      ∧ n2.bbox = n2._noteNumberBox.united n2._octaveDotBox := by
  simp only [layout] at h
  split at h
  · cases h
  · rename_i n1 h1
    cases h
    exact ⟨n1, h1, rfl, rfl, rfl, rfl, rfl⟩

/-- C4: after `JianpuNote::layout` on a note (whatever the height of its digit box, so
in particular when it is non-negative), the stored octave is the one resolved from pitch and key; the octave-dot box differs from the
zero rectangle iff the octave is not 0; for a positive octave its y is the digit top minus
`OCTAVE_DOTBOX_Y_OFFSET` minus `OCTAVE_DOTBOX_HEIGHT`, its bottom edge is strictly above the
digit top and its width is the digit width; for a negative octave its y is the digit bottom
plus `OCTAVE_DOTBOX_Y_OFFSET`, its top edge is strictly below the digit bottom and its
width is the digit width; for octave 0 it is the rectangle (0, 0, 0, 0). -/
theorem layout_octaveDotBox (tightBoundingRect : Int → QRectF) (n n2 : JianpuNote)
    (h : layout tightBoundingRect n = .ok n2) :
    pitch2octaveByKey n.pitch n.key = .ok n2._noteOctave
      ∧ (n2._octaveDotBox ≠ ⟨0, 0, 0, 0⟩ ↔ n2._noteOctave ≠ 0)
      ∧ (0 < n2._noteOctave →
          n2._octaveDotBox.y
              = n2._noteNumberBox.top - OCTAVE_DOTBOX_Y_OFFSET - OCTAVE_DOTBOX_HEIGHT
            ∧ n2._octaveDotBox.bottom < n2._noteNumberBox.top
            ∧ n2._octaveDotBox.width = n2._noteNumberBox.width)
      ∧ (n2._noteOctave < 0 →
          n2._octaveDotBox.y = n2._noteNumberBox.bottom + OCTAVE_DOTBOX_Y_OFFSET
            ∧ n2._noteNumberBox.bottom < n2._octaveDotBox.top
            ∧ n2._octaveDotBox.width = n2._noteNumberBox.width)
      ∧ (n2._noteOctave = 0 → n2._octaveDotBox = ⟨0, 0, 0, 0⟩) := by
  obtain ⟨n1, h1, hoct, -, hbox, hdot, -⟩ := layout_ok tightBoundingRect n n2 h
  obtain ⟨-, hres, -, -⟩ := setNoteByPitch_ok n n1 _ _ _ h1
  rw [← hoct] at hdot hres
  refine ⟨hres, ?_, ?_, ?_, ?_⟩
  · constructor
    · intro hne h0
      apply hne
      rw [hdot, h0]
      simp
    · intro hne
      rw [hdot]
      by_cases hneg : n2._noteOctave < 0
      · simp [hneg, OCTAVE_DOTBOX_HEIGHT, OCTAVE_DOT_HEIGHT, OCTAVE_DOT_Y_SPACE]
      · have hpos : n2._noteOctave > 0 := by omega
        simp [hneg, hpos, OCTAVE_DOTBOX_HEIGHT, OCTAVE_DOT_HEIGHT, OCTAVE_DOT_Y_SPACE]
  · intro hpos
    have hneg : ¬ n2._noteOctave < 0 := by omega
    rw [hdot]
    simp only [hneg, if_false, gt_iff_lt, hpos, if_true, QRectF.top, QRectF.bottom]
    refine ⟨?_, ?_, trivial⟩
    · ring
    · simp only [hbox, OCTAVE_DOTBOX_HEIGHT, OCTAVE_DOT_HEIGHT, OCTAVE_DOT_Y_SPACE,
        OCTAVE_DOTBOX_Y_OFFSET]
      norm_num
  · intro hneg
    rw [hdot]
    simp only [hneg, if_true, QRectF.top, QRectF.bottom]
    refine ⟨?_, ?_, trivial⟩
    · trivial
    · simp only [hbox, OCTAVE_DOTBOX_Y_OFFSET]
      norm_num
  · intro h0
    rw [hdot, h0]
    simp

/-- C4 witness: a C one octave above middle C in C major, with a 10 by 20 font rectangle,
gets its octave-dot box at y = -36, above the digit box. -/
theorem layout_octaveDotBox_witness :
    layout (fun _ => ⟨0, 0, 10, 20⟩)
        ⟨72, 14, some Key.C, .V_QUARTER, ⟨0, 0⟩, .null, 0, 0, 0, .null, .null⟩
      = .ok ⟨72, 14, some Key.C, .V_QUARTER, ⟨0, 0⟩, ⟨0, -36, 10, 50⟩, 1, 1, 0,
          ⟨0, 0, 10, 14⟩, ⟨0, -36, 10, 26⟩⟩
      ∧ ((⟨0, -36, 10, 26⟩ : QRectF) ≠ ⟨0, 0, 0, 0⟩ ↔ (1 : Int) ≠ 0) :=
  ⟨by decide!,
    (layout_octaveDotBox (fun _ => ⟨0, 0, 10, 20⟩)
      ⟨72, 14, some Key.C, .V_QUARTER, ⟨0, 0⟩, .null, 0, 0, 0, .null, .null⟩
      ⟨72, 14, some Key.C, .V_QUARTER, ⟨0, 0⟩, ⟨0, -36, 10, 50⟩, 1, 1, 0,
          ⟨0, 0, 10, 14⟩, ⟨0, -36, 10, 26⟩⟩ (by decide!)).2.1⟩

end JianpuNote

end Ms

namespace Ms

namespace JianpuBeam

theorem deeper_iff (elements : List ChordRest) (L : Int) (k : Nat) (h : k < elements.length) :
    deeper elements L k ↔ ¬ (elements[k].hooks - 1 < L) := by
  simp only [deeper, List.getElem?_eq_getElem h, Option.some.injEq, exists_eq_left']
  omega

theorem not_deeper_of_le (elements : List ChordRest) (L : Int) (k : Nat)
    (h : elements.length ≤ k) : ¬ deeper elements L k := by
  rintro ⟨cr, hcr, -⟩
  rw [List.getElem?_eq_none h] at hcr
  cases hcr

/-- The inner loop returns within its budget, at the first index from `j` on that is not
deeper than `beamLevel`. -/
theorem groupEnd_spec (elements : List ChordRest) (L : Int) :
    ∀ fuel j, j ≤ elements.length → elements.length < j + fuel →
      ∃ j2, groupEnd elements L fuel j = .ok j2 ∧ j ≤ j2 ∧ j2 ≤ elements.length
        ∧ (∀ k, j ≤ k → k < j2 → deeper elements L k)
        ∧ ¬ deeper elements L j2 := by
  intro fuel
  induction fuel with
  | zero =>
    intro j hjn h
    omega
  | succ fuel ih =>
    intro j hjn h
    by_cases hj : j < elements.length
    · by_cases hl : elements[j].hooks - 1 < L
      · refine ⟨j, by simp [groupEnd, hj, hl], le_refl _, hjn, ?_, ?_⟩
        · intro k h1 h2; omega
        · rw [deeper_iff elements L j hj]; simpa using hl
      · obtain ⟨j2, hj2, hle, hn, hin, hout⟩ := ih (j + 1) (by omega) (by omega)
        refine ⟨j2, by simp [groupEnd, hj, hl, hj2], by omega, hn, ?_, hout⟩
        intro k h1 h2
        by_cases hk : k = j
        · subst hk
          rw [deeper_iff elements L k hj]; exact hl
        · exact hin k (by omega) h2
    · refine ⟨j, by simp [groupEnd, hj], le_refl _, hjn, ?_, ?_⟩
      · intro k h1 h2; omega
      · exact not_deeper_of_le elements L j (by omega)

end JianpuBeam

end Ms

namespace Ms

theorem LayoutState.apply_nil (st : LayoutState) : st.apply [] = st := by
  cases st
  simp [LayoutState.apply]

theorem LayoutState.apply_append (st : LayoutState) (es fs : List Emission) :
    st.apply (es ++ fs) = (st.apply es).apply fs := by
  simp [LayoutState.apply, List.foldl_append]

namespace JianpuBeam

/-- The loop over one beam level returns within its budget; what it does to the state is
to apply a list of emissions that does not depend on the state, each made at height `y` for
level `beamLevel`, and whose ranges are the maximal runs, from `i` on, of the indices deeper
than `beamLevel`. -/
theorem groupLoop_spec (elements : List ChordRest) (pagePosition : QPointF)
    (beamDistance : qreal) (L : Int) (y : qreal) :
    ∀ fuel i, i ≤ elements.length → elements.length < i + fuel →
      ∃ es : List Emission,
        (∀ st, groupLoop elements pagePosition beamDistance L y fuel i st = .ok (st.apply es))
          ∧ (∀ e ∈ es, e.range.beamLevel = L
              ∧ EmissionAt elements pagePosition beamDistance y e)
          ∧ IsRunsFrom elements L i (es.map (fun e => (e.range.c1, e.range.c2))) := by
  intro fuel
  induction fuel with
  | zero =>
    intro i hin h
    omega
  | succ fuel ih =>
    intro i hin h
    by_cases hi : i < elements.length
    · by_cases hl : elements[i].hooks - 1 < L
      · obtain ⟨es, hes, hem, hruns⟩ := ih (i + 1) (by omega) (by omega)
        refine ⟨es, ?_, hem, ?_⟩
        · intro st
          simp [groupLoop, hi, hl, hes]
        · have hnd : ¬ deeper elements L i := by
            rw [deeper_iff elements L i hi]; simpa using hl
          refine ⟨?_, ?_, hruns.ordered⟩
          · intro r hr
            obtain ⟨h1, h2, h3⟩ := hruns.inside r hr
            exact ⟨by omega, h2, h3⟩
          · intro k hk hd
            have hne : k ≠ i := by
              rintro rfl
              exact hnd hd
            exact hruns.covered k (by omega) hd
      · obtain ⟨j2, hj2, hle, hn, hinr, hout⟩ :=
          groupEnd_spec elements L (elements.length + 1) (i + 1) (by omega) (by omega)
        obtain ⟨es, hes, hem, hruns⟩ := ih j2 hn (by omega)
        have hc2 : j2 - 1 < elements.length := by omega
        have hdi : deeper elements L i := by
          rw [deeper_iff elements L i hi]; exact hl
        refine ⟨⟨⟨L, i, j2 - 1⟩,
            ⟨elements[i].pos.x + elements[i].pageX - pagePosition.x, y,
              elements[j2 - 1].pos.x + elements[j2 - 1].pageX - pagePosition.x
                + elements[j2 - 1].bbox.width, y⟩,
            ⟨elements[i].pos.x + elements[i].pageX - pagePosition.x, y,
              (elements[j2 - 1].pos.x + elements[j2 - 1].pageX - pagePosition.x
                + elements[j2 - 1].bbox.width)
                - (elements[i].pos.x + elements[i].pageX - pagePosition.x),
              beamDistance⟩⟩ :: es, ?_, ?_, ?_⟩
        · intro st
          have happ : ∀ (e : Emission), st.apply (e :: es) = (st.apply [e]).apply es :=
            fun e => LayoutState.apply_append st [e] es
          rw [happ, ← hes]
          simp [groupLoop, hi, hl, hj2, List.getElem?_eq_getElem hi,
            List.getElem?_eq_getElem hc2, LayoutState.apply]
        · intro e he
          rcases List.mem_cons.mp he with rfl | he
          · exact ⟨rfl, elements[i], elements[j2 - 1], List.getElem?_eq_getElem hi,
              List.getElem?_eq_getElem hc2, rfl, rfl⟩
          · exact hem e he
        · refine ⟨?_, ?_, ?_⟩
          · intro r hr
            simp only [List.map_cons, List.mem_cons] at hr
            rcases hr with rfl | hr
            · refine ⟨le_refl _, by simp only; omega, ?_⟩
              intro k h1 h2
              simp only at h1 h2
              by_cases hk : k = i
              · subst hk; exact hdi
              · exact hinr k (by omega) (by omega)
            · obtain ⟨h1, h2, h3⟩ := hruns.inside r hr
              exact ⟨by omega, h2, h3⟩
          · intro k hk hd
            by_cases hk2 : k < j2
            · exact ⟨(i, j2 - 1), by simp, hk, by simp only; omega⟩
            · obtain ⟨r, hr, h1, h2⟩ := hruns.covered k (by omega) hd
              exact ⟨r, by simp only [List.map_cons, List.mem_cons]; exact Or.inr hr, h1, h2⟩
          · simp only [List.map_cons, List.pairwise_cons]
            refine ⟨?_, hruns.ordered⟩
            intro s hs
            obtain ⟨h1, h2, h3⟩ := hruns.inside s hs
            have hds : deeper elements L s.1 := h3 s.1 (le_refl _) h2
            have hne : s.1 ≠ j2 := by
              intro heq
              rw [heq] at hds
              exact hout hds
            show j2 - 1 + 1 < s.1
            omega
    · refine ⟨[], ?_, ?_, ?_⟩
      · intro st
        simp [groupLoop, hi, LayoutState.apply_nil]
      · intro e he
        cases he
      · refine ⟨?_, ?_, List.Pairwise.nil⟩
        · intro r hr
          cases hr
        · intro k hk hd
          exact absurd hd (not_deeper_of_le elements L k (by omega))

end JianpuBeam

end Ms

namespace Ms

theorem rangesAt_append (xs ys : List BeamRange) (L : Int) :
    rangesAt (xs ++ ys) L = rangesAt xs L ++ rangesAt ys L := by
  simp [rangesAt]

theorem rangesAt_of_level (es : List Emission) (L : Int)
    (h : ∀ e ∈ es, e.range.beamLevel = L) :
    rangesAt (es.map Emission.range) L = es.map (fun e => (e.range.c1, e.range.c2)) := by
  induction es with
  | nil => rfl
  | cons e es ih =>
    have he : e.range.beamLevel = L := h e (List.mem_cons_self _ _)
    have ih2 := ih (fun f hf => h f (List.mem_cons_of_mem _ hf))
    simp only [rangesAt] at ih2
    simp [rangesAt, he, ih2]

theorem rangesAt_of_other (es : List Emission) (L : Int)
    (h : ∀ e ∈ es, e.range.beamLevel ≠ L) :
    rangesAt (es.map Emission.range) L = [] := by
  induction es with
  | nil => rfl
  | cons e es ih =>
    have he : e.range.beamLevel ≠ L := h e (List.mem_cons_self _ _)
    have ih2 := ih (fun f hf => h f (List.mem_cons_of_mem _ hf))
    simp only [rangesAt] at ih2
    simp [rangesAt, he, ih2]

namespace JianpuBeam

/-- The loop over the levels returns; it applies to the state a list of emissions that does
not depend on the state, the one of level `L` being made at height
`y0 + (L - L0) * beamDistance`, and for each level it runs through the ranges emitted at
that level are the maximal runs of the indices deeper than that level. -/
theorem levelLoop_spec (elements : List ChordRest) (pagePosition : QPointF)
    (beamDistance : qreal) :
    ∀ (count : Nat) (L0 : Int) (y0 : qreal),
      ∃ es : List Emission,
        (∀ st, levelLoop elements pagePosition beamDistance count L0 y0 st
            = .ok (st.apply es))
          ∧ (∀ e ∈ es, L0 ≤ e.range.beamLevel ∧ e.range.beamLevel < L0 + count
              ∧ EmissionAt elements pagePosition beamDistance
                  (y0 + ((e.range.beamLevel - L0 : Int) : qreal) * beamDistance) e)
          ∧ (∀ L, L0 ≤ L → L < L0 + count →
              IsRunsFrom elements L 0 (rangesAt (es.map Emission.range) L)) := by
  intro count
  induction count with
  | zero =>
    intro L0 y0
    refine ⟨[], ?_, ?_, ?_⟩
    · intro st
      simp [levelLoop, LayoutState.apply_nil]
    · intro e he
      cases he
    · intro L h1 h2
      simp at h2
      omega
  | succ count ih =>
    intro L0 y0
    obtain ⟨es0, hes0, hem0, hruns0⟩ :=
      groupLoop_spec elements pagePosition beamDistance L0 y0 (elements.length + 1) 0
        (Nat.zero_le _) (by omega)
    obtain ⟨es1, hes1, hem1, hruns1⟩ := ih (L0 + 1) (y0 + beamDistance)
    refine ⟨es0 ++ es1, ?_, ?_, ?_⟩
    · intro st
      simp [levelLoop, hes0, hes1, LayoutState.apply_append]
    · intro e he
      rcases List.mem_append.mp he with he | he
      · obtain ⟨hl, hat⟩ := hem0 e he
        refine ⟨by omega, by omega, ?_⟩
        rw [hl]
        simpa using hat
      · obtain ⟨h1, h2, hat⟩ := hem1 e he
        refine ⟨by omega, by push_cast at h2 ⊢; omega, ?_⟩
        have hy : y0 + beamDistance
              + ((e.range.beamLevel - (L0 + 1) : Int) : qreal) * beamDistance
            = y0 + ((e.range.beamLevel - L0 : Int) : qreal) * beamDistance := by
          push_cast
          ring
        rw [← hy]
        exact hat
    · intro L h1 h2
      rw [List.map_append, rangesAt_append]
      by_cases hL : L = L0
      · subst hL
        rw [rangesAt_of_level es0 L (fun e he => (hem0 e he).1),
          rangesAt_of_other es1 L (fun e he => by have := (hem1 e he).1; omega),
          List.append_nil]
        exact hruns0
      · rw [rangesAt_of_other es0 L (fun e he => by rw [(hem0 e he).1]; exact Ne.symm hL),
          List.nil_append]
        exact hruns1 L (by omega) (by push_cast at h2 ⊢; omega)

theorem maxBeamLevel_aux (elements : List ChordRest) :
    ∀ init : Int,
      init ≤ elements.foldl (fun beamLevels c => max beamLevels c.hooks) init
        ∧ ∀ cr ∈ elements,
            cr.hooks ≤ elements.foldl (fun beamLevels c => max beamLevels c.hooks) init := by
  induction elements with
  | nil =>
    intro init
    exact ⟨le_refl _, fun cr h => by cases h⟩
  | cons c cs ih =>
    intro init
    obtain ⟨h1, h2⟩ := ih (max init c.hooks)
    simp only [List.foldl_cons]
    refine ⟨le_trans (le_max_left _ _) h1, ?_⟩
    intro cr hcr
    rcases List.mem_cons.mp hcr with rfl | hcr
    · exact le_trans (le_max_right _ _) h1
    · exact h2 cr hcr

/-- No element is deeper than the maximum beam level, which is at least 0. -/
theorem maxBeamLevel_spec (elements : List ChordRest) :
    0 ≤ maxBeamLevel elements ∧ ∀ cr ∈ elements, cr.hooks ≤ maxBeamLevel elements :=
  maxBeamLevel_aux elements 0

/-- `JianpuBeam::layout` on a group whose first element yields the first beam height `y0`:
the call returns, and what it does is to reset the bounding box and then apply a list of
emissions that depends on the elements and the page position only, not on the segment list
or bounding box held before. The emission of level `L` is made at height
`y0 + L * (BEAM_HEIGHT + BEAM_Y_SPACE)`, levels are from 0 to below the maximum beam level,
and for every level from 0 on the ranges emitted at it are the maximal runs of the indices
deeper than the level. -/
theorem layoutState_spec (elements : List ChordRest) (pagePos : QPointF) (cr : ChordRest)
    (y0 : qreal) (hhead : elements.head? = some cr) (hy : firstBeamY cr pagePos = .ok y0) :
    ∃ es : List Emission,
      (∀ segs bbox, layoutState ⟨elements, pagePos, segs, bbox⟩
          = .ok (LayoutState.apply ⟨segs, QRectF.null, []⟩ es))
        ∧ (∀ e ∈ es, 0 ≤ e.range.beamLevel ∧ e.range.beamLevel < maxBeamLevel elements
            ∧ EmissionAt elements pagePos
                ((JianpuNote.BEAM_HEIGHT + JianpuNote.BEAM_Y_SPACE : Int) : qreal)
                (y0 + (e.range.beamLevel : qreal)
                  * ((JianpuNote.BEAM_HEIGHT + JianpuNote.BEAM_Y_SPACE : Int) : qreal)) e)
        ∧ (∀ L, 0 ≤ L → IsRunsFrom elements L 0 (rangesAt (es.map Emission.range) L)) := by
  obtain ⟨hmax0, hmax⟩ := maxBeamLevel_spec elements
  obtain ⟨es, hes, hem, hruns⟩ := levelLoop_spec elements pagePos
    ((JianpuNote.BEAM_HEIGHT + JianpuNote.BEAM_Y_SPACE : Int) : qreal)
    (maxBeamLevel elements).toNat 0 y0
  refine ⟨es, ?_, ?_, ?_⟩
  · intro segs bbox
    simp only [layoutState, hhead, hy]
    exact hes _
  · intro e he
    obtain ⟨h1, h2, hat⟩ := hem e he
    refine ⟨h1, by omega, ?_⟩
    simpa using hat
  · intro L hL
    by_cases hlt : L < maxBeamLevel elements
    · exact hruns L hL (by omega)
    · rw [rangesAt_of_other es L (fun e he => by have := (hem e he).2.1; omega)]
      refine ⟨?_, ?_, List.Pairwise.nil⟩
      · intro r hr
        cases hr
      rintro k - ⟨c, hc, hlc⟩
      have := hmax c (List.getElem?_mem hc)
      omega

end JianpuBeam

end Ms

namespace Ms

/-- Two members of a list whose ranges come in increasing order with a gap between them are
equal or lie apart, one way or the other. -/
theorem ranges_apart (rs : List (Nat × Nat))
    (h : rs.Pairwise (fun r s => r.2 + 1 < s.1)) :
    ∀ r ∈ rs, ∀ s ∈ rs, r = s ∨ r.2 + 1 < s.1 ∨ s.2 + 1 < r.1 := by
  induction rs with
  | nil =>
    intro r hr
    cases hr
  | cons a l ih =>
    obtain ⟨ha, hl⟩ := List.pairwise_cons.mp h
    intro r hr s hs
    rcases List.mem_cons.mp hr with hra | hrl
    · rcases List.mem_cons.mp hs with hsa | hsl
      · exact Or.inl (hra.trans hsa.symm)
      · exact Or.inr (Or.inl (hra ▸ ha s hsl))
    · rcases List.mem_cons.mp hs with hsa | hsl
      · exact Or.inr (Or.inr (hsa ▸ ha r hrl))
      · exact ih hl r hrl s hsl

/-- In a list of maximal runs, an index lies in at most one range. -/
theorem IsRunsFrom.unique {elements : List ChordRest} {L : Int} {i : Nat}
    {rs : List (Nat × Nat)} (h : IsRunsFrom elements L i rs) (k : Nat) :
    ∀ r ∈ rs, ∀ s ∈ rs, r.1 ≤ k ∧ k ≤ r.2 → s.1 ≤ k ∧ k ≤ s.2 → s = r := by
  intro r hr s hs hkr hks
  rcases ranges_apart rs h.ordered r hr s hs with heq | hlt | hlt
  · exact heq.symm
  · omega
  · omega

/-- In a list of maximal runs from index 0 on, no range can be extended to the left or to
the right. -/
theorem IsRunsFrom.maximal {elements : List ChordRest} {L : Int}
    {rs : List (Nat × Nat)} (h : IsRunsFrom elements L 0 rs) :
    ∀ r ∈ rs, (r.1 = 0 ∨ ¬ deeper elements L (r.1 - 1)) ∧ ¬ deeper elements L (r.2 + 1) := by
  intro r hr
  have hr12 := (h.inside r hr).2.1
  constructor
  · by_cases h0 : r.1 = 0
    · exact Or.inl h0
    · refine Or.inr (fun hd => ?_)
      obtain ⟨s, hs, h1, h2⟩ := h.covered (r.1 - 1) (Nat.zero_le _) hd
      have hs12 := (h.inside s hs).2.1
      rcases ranges_apart rs h.ordered r hr s hs with heq | hlt | hlt
      · subst heq; omega
      · omega
      · omega
  · intro hd
    obtain ⟨s, hs, h1, h2⟩ := h.covered (r.2 + 1) (Nat.zero_le _) hd
    have hs12 := (h.inside s hs).2.1
    rcases ranges_apart rs h.ordered r hr s hs with heq | hlt | hlt
    · subst heq; omega
    · omega
    · omega

end Ms

namespace Ms

theorem forall₂_range_line (P : BeamRange → QLineF → Prop) (es : List Emission)
    (h : ∀ e ∈ es, P e.range e.line) :
    List.Forall₂ P (es.map Emission.range) (es.map Emission.line) := by
  induction es with
  | nil => exact List.Forall₂.nil
  | cons e es ih =>
    exact List.Forall₂.cons (h e (List.mem_cons_self _ _))
      (ih (fun f hf => h f (List.mem_cons_of_mem _ hf)))

theorem foldl_rect_of_line (f : QLineF → QRectF) (es : List Emission)
    (h : ∀ e ∈ es, e.rect = f e.line) :
    ∀ init : QRectF,
      es.foldl (fun bbox e => Element.addbbox bbox e.rect) init
        = (es.map Emission.line).foldl (fun bbox s => Element.addbbox bbox (f s)) init := by
  induction es with
  | nil =>
    intro init
    rfl
  | cons e es ih =>
    intro init
    simp only [List.foldl_cons, List.map_cons]
    rw [h e (List.mem_cons_self _ _)]
    exact ih (fun g hg => h g (List.mem_cons_of_mem _ hg)) _

theorem LayoutState.apply_fresh (segs : List QLineF) (es : List Emission) :
    LayoutState.apply ⟨segs, QRectF.null, []⟩ es
      = ⟨segs ++ es.map Emission.line,
          es.foldl (fun bbox e => Element.addbbox bbox e.rect) QRectF.null,
          es.map Emission.range⟩ := by
  simp [LayoutState.apply]

namespace JianpuBeam

/-- A call of `layout` that returns was made on a group with a first element, for which
the first beam height is defined. -/
theorem layout_ok_inv (b b1 : JianpuBeam) (h : layout b = .ok b1) :
    ∃ cr y0, b._elements.head? = some cr ∧ firstBeamY cr b.pagePos = .ok y0 := by
  simp only [layout, layoutState] at h
  cases hhead : b._elements.head? with
  | none => simp [hhead] at h
  | some cr =>
    cases hy : firstBeamY cr b.pagePos with
    | error e => simp [hhead, hy] at h
    | ok y0 => exact ⟨cr, y0, rfl, hy⟩

/-- What `layout` does to a beam, whatever the beam held before: it appends a list `new` of
segments to the segment list and replaces the bounding box by `box`; `new`, `box` and the
log `em` of emitted ranges depend on the elements and the page position only. There is one
new segment per emitted range, in order, running at height
`y0 + beamLevel * (BEAM_HEIGHT + BEAM_Y_SPACE)` from the left edge of element `c1` to the
right edge of element `c2`, and `box` is the union, from the null rectangle on, of the
rectangles of the new segments. -/
theorem layout_effect (elements : List ChordRest) (pagePos : QPointF) (cr : ChordRest)
    (y0 : qreal) (hhead : elements.head? = some cr) (hy : firstBeamY cr pagePos = .ok y0) :
    ∃ (new : List QLineF) (box : QRectF) (em : List BeamRange),
      (∀ segs bbox,
          layoutState ⟨elements, pagePos, segs, bbox⟩ = .ok ⟨segs ++ new, box, em⟩
            ∧ layout ⟨elements, pagePos, segs, bbox⟩
                = .ok ⟨elements, pagePos, segs ++ new, box⟩)
        ∧ List.Forall₂
            (fun r s => (0 ≤ r.beamLevel ∧ r.beamLevel < maxBeamLevel elements)
              ∧ ∃ cr1 cr2, elements[r.c1]? = some cr1 ∧ elements[r.c2]? = some cr2
                ∧ s = ⟨cr1.pos.x + cr1.pageX - pagePos.x,
                    y0 + (r.beamLevel : qreal)
                      * ((JianpuNote.BEAM_HEIGHT + JianpuNote.BEAM_Y_SPACE : Int) : qreal),
                    cr2.pos.x + cr2.pageX - pagePos.x + cr2.bbox.width,
                    y0 + (r.beamLevel : qreal)
                      * ((JianpuNote.BEAM_HEIGHT + JianpuNote.BEAM_Y_SPACE : Int) : qreal)⟩)
            em new
        ∧ box = new.foldl
            (fun bbox s => Element.addbbox bbox
              ⟨s.x1, s.y1, s.x2 - s.x1,
                ((JianpuNote.BEAM_HEIGHT + JianpuNote.BEAM_Y_SPACE : Int) : qreal)⟩)
            QRectF.null := by
  obtain ⟨es, hes, hem, -⟩ := layoutState_spec elements pagePos cr y0 hhead hy
  refine ⟨es.map Emission.line,
    es.foldl (fun bbox e => Element.addbbox bbox e.rect) QRectF.null,
    es.map Emission.range, ?_, ?_, ?_⟩
  · intro segs bbox
    have h1 := hes segs bbox
    rw [LayoutState.apply_fresh] at h1
    refine ⟨h1, ?_⟩
    simp only [layout, h1]
  · apply forall₂_range_line
    intro e he
    obtain ⟨h0, h1, cr1, cr2, hc1, hc2, hline, -⟩ := hem e he
    exact ⟨⟨h0, h1⟩, cr1, cr2, hc1, hc2, hline⟩
  · apply foldl_rect_of_line
    intro e he
    obtain ⟨-, -, cr1, cr2, -, -, hline, hrect⟩ := hem e he
    rw [hrect, hline]

end JianpuBeam

end Ms

namespace Ms

namespace JianpuBeam

/-- C2 (at the failing input): a group of one rest of level depth 1 that holds the segment
(0, 50)-(40, 50) from an earlier pass. The call emits the single range (0, 0) at level 0,
yet the segment list afterwards has two entries: the old segment, still there, followed by
the new one. Only the bounding box is replaced. -/
theorem layout_keeps_prior_segments :
    exampleStale.beamSegments = [⟨0, 50, 40, 50⟩]
      ∧ layoutState exampleStale
          = .ok ⟨[⟨0, 50, 40, 50⟩, ⟨0, 50, 10, 50⟩], ⟨0, 50, 10, 12⟩, [⟨0, 0, 0⟩]⟩
      ∧ layout exampleStale
          = .ok ⟨[exampleRest 1 0], ⟨100, 5⟩, [⟨0, 50, 40, 50⟩, ⟨0, 50, 10, 50⟩],
              ⟨0, 50, 10, 12⟩⟩ := by
  decide!

/-- C2 (amended): on a non-empty group whose first element yields the first beam height
`y0`, `JianpuBeam::layout` returns; whatever segment list `segs` and bounding box the beam
held before, the segment list afterwards is `segs` followed by exactly one new segment per
range per level emitted in this call, in order (the segment of range `(c1, c2)` at level
`L` runs at height `y0 + L * (BEAM_HEIGHT + BEAM_Y_SPACE)` from the left edge of element
`c1` to the right edge of element `c2`), and the bounding box afterwards is the union of
the rectangles of the new segments, the same whatever was held before. -/
theorem layout_replaces_bbox_appends_segments (b : JianpuBeam) (cr : ChordRest) (y0 : qreal)
    (hhead : b._elements.head? = some cr) (hy : firstBeamY cr b.pagePos = .ok y0) :
    ∃ (new : List QLineF) (box : QRectF) (em : List BeamRange),
      (∀ segs bbox,
          layoutState ⟨b._elements, b.pagePos, segs, bbox⟩ = .ok ⟨segs ++ new, box, em⟩
            ∧ layout ⟨b._elements, b.pagePos, segs, bbox⟩
                = .ok ⟨b._elements, b.pagePos, segs ++ new, box⟩)
        ∧ List.Forall₂
            (fun r s => (0 ≤ r.beamLevel ∧ r.beamLevel < maxBeamLevel b._elements)
              ∧ ∃ cr1 cr2, b._elements[r.c1]? = some cr1 ∧ b._elements[r.c2]? = some cr2
                ∧ s = ⟨cr1.pos.x + cr1.pageX - b.pagePos.x,
                    y0 + (r.beamLevel : qreal)
                      * ((JianpuNote.BEAM_HEIGHT + JianpuNote.BEAM_Y_SPACE : Int) : qreal),
                    cr2.pos.x + cr2.pageX - b.pagePos.x + cr2.bbox.width,
                    y0 + (r.beamLevel : qreal)
                      * ((JianpuNote.BEAM_HEIGHT + JianpuNote.BEAM_Y_SPACE : Int) : qreal)⟩)
            em new
        ∧ box = new.foldl
            (fun bbox s => Element.addbbox bbox
              ⟨s.x1, s.y1, s.x2 - s.x1,
                ((JianpuNote.BEAM_HEIGHT + JianpuNote.BEAM_Y_SPACE : Int) : qreal)⟩)
            QRectF.null :=
  layout_effect b._elements b.pagePos cr y0 hhead hy

/-- C2 witness: the amended statement at the group that holds a segment from an earlier
pass. -/
theorem layout_replaces_bbox_appends_segments_witness :
    exampleStale._elements.head? = some (exampleRest 1 0)
      ∧ firstBeamY (exampleRest 1 0) exampleStale.pagePos = .ok 50
      ∧ ∃ (new : List QLineF) (box : QRectF) (em : List BeamRange),
        (∀ segs bbox,
            layoutState ⟨exampleStale._elements, exampleStale.pagePos, segs, bbox⟩
                = .ok ⟨segs ++ new, box, em⟩
              ∧ layout ⟨exampleStale._elements, exampleStale.pagePos, segs, bbox⟩
                  = .ok ⟨exampleStale._elements, exampleStale.pagePos, segs ++ new, box⟩)
          ∧ List.Forall₂
              (fun r s =>
                (0 ≤ r.beamLevel ∧ r.beamLevel < maxBeamLevel exampleStale._elements)
                ∧ ∃ cr1 cr2, exampleStale._elements[r.c1]? = some cr1
                  ∧ exampleStale._elements[r.c2]? = some cr2
                  ∧ s = ⟨cr1.pos.x + cr1.pageX - exampleStale.pagePos.x,
                      50 + (r.beamLevel : qreal)
                        * ((JianpuNote.BEAM_HEIGHT + JianpuNote.BEAM_Y_SPACE : Int) : qreal),
                      cr2.pos.x + cr2.pageX - exampleStale.pagePos.x + cr2.bbox.width,
                      50 + (r.beamLevel : qreal)
                        * ((JianpuNote.BEAM_HEIGHT + JianpuNote.BEAM_Y_SPACE : Int) : qreal)⟩)
              em new
          ∧ box = new.foldl
              (fun bbox s => Element.addbbox bbox
                ⟨s.x1, s.y1, s.x2 - s.x1,
                  ((JianpuNote.BEAM_HEIGHT + JianpuNote.BEAM_Y_SPACE : Int) : qreal)⟩)
              QRectF.null :=
  ⟨by decide!, by decide!,
    layout_replaces_bbox_appends_segments exampleStale (exampleRest 1 0) 50
      (by decide!) (by decide!)⟩

/-- C3 (at the failing input): on the group with level depths 1, 1, 0, 1 and no segment
yet, the first call of `layout` leaves two segments; the second call, on the unchanged
group, leaves four: the segment list is not the same after the second call. -/
theorem layout_twice_doubles_segments :
    layout exampleGroup
        = .ok ⟨exampleGroup._elements, ⟨100, 5⟩,
            [⟨0, 50, 30, 50⟩, ⟨60, 50, 70, 50⟩], ⟨0, 50, 70, 12⟩⟩
      ∧ layout ⟨exampleGroup._elements, ⟨100, 5⟩,
            [⟨0, 50, 30, 50⟩, ⟨60, 50, 70, 50⟩], ⟨0, 50, 70, 12⟩⟩
        = .ok ⟨exampleGroup._elements, ⟨100, 5⟩,
            [⟨0, 50, 30, 50⟩, ⟨60, 50, 70, 50⟩, ⟨0, 50, 30, 50⟩, ⟨60, 50, 70, 50⟩],
            ⟨0, 50, 70, 12⟩⟩ := by
  decide!

/-- C3 (amended): if `layout` returns on a group, a second call on the unchanged result
returns too; it leaves the elements, the page position and the bounding box as the first
call left them, and it appends to the segment list the same segments, with the same
coordinates in the same order, that the first call appended. -/
theorem layout_twice (b b1 : JianpuBeam) (h : layout b = .ok b1) :
    ∃ (b2 : JianpuBeam) (new : List QLineF),
      layout b1 = .ok b2
        ∧ b1.beamSegments = b.beamSegments ++ new
        ∧ b2.beamSegments = b1.beamSegments ++ new
        ∧ b2.bbox = b1.bbox
        ∧ b2._elements = b1._elements ∧ b2.pagePos = b1.pagePos := by
  obtain ⟨cr, y0, hhead, hy⟩ := layout_ok_inv b b1 h
  obtain ⟨new, box, em, hall, -, -⟩ := layout_effect b._elements b.pagePos cr y0 hhead hy
  have h1 := (hall b.beamSegments b.bbox).2
  have hb : (⟨b._elements, b.pagePos, b.beamSegments, b.bbox⟩ : JianpuBeam) = b := by
    cases b
    rfl
  rw [hb, h] at h1
  cases h1
  exact ⟨_, new, (hall (b.beamSegments ++ new) box).2, rfl, rfl, rfl, rfl, rfl⟩

/-- C3 witness: the amended statement at the group with level depths 1, 1, 0, 1. -/
theorem layout_twice_witness :
    ∃ (b2 : JianpuBeam) (new : List QLineF),
      layout ⟨exampleGroup._elements, ⟨100, 5⟩,
            [⟨0, 50, 30, 50⟩, ⟨60, 50, 70, 50⟩], ⟨0, 50, 70, 12⟩⟩ = .ok b2
        ∧ [⟨0, 50, 30, 50⟩, ⟨60, 50, 70, 50⟩] = exampleGroup.beamSegments ++ new
        ∧ b2.beamSegments = [⟨0, 50, 30, 50⟩, ⟨60, 50, 70, 50⟩] ++ new
        ∧ b2.bbox = ⟨0, 50, 70, 12⟩
        ∧ b2._elements = exampleGroup._elements ∧ b2.pagePos = ⟨100, 5⟩ :=
  layout_twice exampleGroup
    ⟨exampleGroup._elements, ⟨100, 5⟩, [⟨0, 50, 30, 50⟩, ⟨60, 50, 70, 50⟩], ⟨0, 50, 70, 12⟩⟩
    (by decide!)

/-- C10: on a non-empty group whose first element yields the first beam height `y0`,
`JianpuBeam::layout` returns, and every segment it emits, at a level `L` from 0 to below the
maximum level depth, is horizontal at `y = y0 + L * (BEAM_HEIGHT + BEAM_Y_SPACE)`. -/
theorem layout_segment_y (b : JianpuBeam) (cr : ChordRest) (y0 : qreal)
    (hhead : b._elements.head? = some cr) (hy : firstBeamY cr b.pagePos = .ok y0) :
    ∃ (st : LayoutState) (new : List QLineF),
      layoutState b = .ok st
        ∧ st.beamSegments = b.beamSegments ++ new
        ∧ List.Forall₂
            (fun r s => 0 ≤ r.beamLevel ∧ r.beamLevel < maxBeamLevel b._elements
              ∧ s.y1 = y0 + (r.beamLevel : qreal)
                  * ((JianpuNote.BEAM_HEIGHT + JianpuNote.BEAM_Y_SPACE : Int) : qreal)
              ∧ s.y2 = s.y1)
            st.emitted new := by
  obtain ⟨new, box, em, hall, hf, -⟩ := layout_effect b._elements b.pagePos cr y0 hhead hy
  have h1 := (hall b.beamSegments b.bbox).1
  have hb : (⟨b._elements, b.pagePos, b.beamSegments, b.bbox⟩ : JianpuBeam) = b := by
    cases b
    rfl
  rw [hb] at h1
  refine ⟨_, new, h1, rfl, ?_⟩
  refine List.Forall₂.imp ?_ hf
  rintro r s ⟨⟨h0, hm⟩, cr1, cr2, -, -, rfl⟩
  exact ⟨h0, hm, rfl, rfl⟩

/-- C10 witness: a group of one rest of level depth 2 gets exactly two segments, one at
level 0 and one at level 1, whose heights 50 and 62 differ by
`BEAM_HEIGHT + BEAM_Y_SPACE = 12`. -/
theorem layout_segment_y_witness :
    layoutState exampleSingle
        = .ok ⟨[⟨0, 50, 10, 50⟩, ⟨0, 62, 10, 62⟩], ⟨0, 50, 10, 24⟩, [⟨0, 0, 0⟩, ⟨1, 0, 0⟩]⟩
      ∧ JianpuNote.BEAM_HEIGHT + JianpuNote.BEAM_Y_SPACE = 12
      ∧ ∃ (st : LayoutState) (new : List QLineF),
        layoutState exampleSingle = .ok st
          ∧ st.beamSegments = exampleSingle.beamSegments ++ new
          ∧ List.Forall₂
              (fun r s => 0 ≤ r.beamLevel ∧ r.beamLevel < maxBeamLevel exampleSingle._elements
                ∧ s.y1 = 50 + (r.beamLevel : qreal)
                    * ((JianpuNote.BEAM_HEIGHT + JianpuNote.BEAM_Y_SPACE : Int) : qreal)
                ∧ s.y2 = s.y1)
              st.emitted new :=
  ⟨by decide!, by decide,
    layout_segment_y exampleSingle (exampleRest 2 0) 50 (by decide!) (by decide!)⟩

end JianpuBeam

end Ms

namespace Ms

/-- The height of the union of two rectangles that are not null and have non-negative
heights: from the upper of the two top edges to the lower of the two bottom edges. -/
theorem QRectF.united_height (a r : QRectF) (ha : a.isNull = false) (hr : r.isNull = false)
    (hah : 0 ≤ a.height) (hrh : 0 ≤ r.height) :
    (a.united r).height = max (a.y + a.height) (r.y + r.height) - min a.y r.y := by
  simp [QRectF.united, ha, hr, not_lt.mpr hah, not_lt.mpr hrh]

namespace JianpuBeam

/-- The first beam height under a chord whose first note has just been laid out by
`JianpuNote::layout`, with a digit box of positive height: the bottom edge of the digit box
plus `OCTAVE_DOTBOX_Y_OFFSET + OCTAVE_DOTBOX_HEIGHT` when the octave is negative or 0, and
that amount once more when the octave is positive, because the height of the bounding box
then includes the octave-dot box above the digit. -/
theorem firstBeamY_after_note_layout (tightBoundingRect : Int → QRectF) (n n2 : JianpuNote)
    (notes : List Note) (hooks : Int) (pos : QPointF) (pageX : qreal) (bbox : QRectF)
    (pagePosition : QPointF)
    (h : JianpuNote.layout tightBoundingRect n = .ok n2)
    (hh : 0 < n2._noteNumberBox.height) :
    firstBeamY ⟨hooks, pos, pageX, bbox, .chord (.jianpu n2 :: notes)⟩ pagePosition
      = .ok (n2.pos.y + n2._noteNumberBox.bottom
          + ((JianpuNote.OCTAVE_DOTBOX_Y_OFFSET + JianpuNote.OCTAVE_DOTBOX_HEIGHT : Int) : qreal)
          + (if 0 < n2._noteOctave then
              ((JianpuNote.OCTAVE_DOTBOX_Y_OFFSET + JianpuNote.OCTAVE_DOTBOX_HEIGHT : Int) : qreal)
            else 0)) := by
  obtain ⟨n1, -, hoct, -, hbox, hdot, hbb⟩ := JianpuNote.layout_ok tightBoundingRect n n2 h
  rw [← hoct] at hdot
  have hy0 : n2._noteNumberBox.y = 0 := by rw [hbox]
  have hnn : n2._noteNumberBox.isNull = false := by
    have : n2._noteNumberBox.height ≠ 0 := ne_of_gt hh
    simp [QRectF.isNull, this]
  have hdn : n2._noteOctave ≠ 0 → n2._octaveDotBox.isNull = false
      ∧ n2._octaveDotBox.height = 26 := by
    intro hne
    rw [hdot]
    by_cases hneg : n2._noteOctave < 0
    · simp only [hneg, if_true, QRectF.isNull, JianpuNote.OCTAVE_DOTBOX_HEIGHT,
        JianpuNote.OCTAVE_DOT_HEIGHT, JianpuNote.OCTAVE_DOT_Y_SPACE]
      norm_num
    · have hpos : n2._noteOctave > 0 := by omega
      simp only [hneg, if_false, hpos, if_true, QRectF.isNull,
        JianpuNote.OCTAVE_DOTBOX_HEIGHT, JianpuNote.OCTAVE_DOT_HEIGHT,
        JianpuNote.OCTAVE_DOT_Y_SPACE]
      norm_num
  have hheight : n2.bbox.height
      = n2._noteNumberBox.height
        + (if n2._noteOctave = 0 then 0
          else ((JianpuNote.OCTAVE_DOTBOX_Y_OFFSET + JianpuNote.OCTAVE_DOTBOX_HEIGHT : Int)
            : qreal)) := by
    rw [hbb]
    by_cases h0 : n2._noteOctave = 0
    · have hz : (⟨0, 0, 0, 0⟩ : QRectF).isNull = true := by simp [QRectF.isNull]
      rw [hdot]
      simp only [h0, lt_self_iff_false, gt_iff_lt, if_false, if_true, QRectF.united, hnn, hz,
        add_zero]
      simp
    · obtain ⟨hdnull, hdh⟩ := hdn h0
      rw [QRectF.united_height _ _ hnn hdnull (le_of_lt hh) (by rw [hdh]; norm_num), hdh, hy0]
      simp only [h0, if_false, JianpuNote.OCTAVE_DOTBOX_HEIGHT, JianpuNote.OCTAVE_DOT_HEIGHT,
        JianpuNote.OCTAVE_DOT_Y_SPACE, JianpuNote.OCTAVE_DOTBOX_Y_OFFSET]
      by_cases hneg : n2._noteOctave < 0
      · have hdy : n2._octaveDotBox.y = n2._noteNumberBox.height + 10 := by
          rw [hdot]
          simp [hneg, hy0, JianpuNote.OCTAVE_DOTBOX_Y_OFFSET]
        rw [hdy, min_eq_left (by linarith), max_eq_right (by linarith)]
        norm_num
        ring
      · have hpos : n2._noteOctave > 0 := by omega
        have hdy : n2._octaveDotBox.y = -36 := by
          rw [hdot]
          simp only [hneg, if_false, hpos, if_true, hy0, JianpuNote.OCTAVE_DOTBOX_HEIGHT,
            JianpuNote.OCTAVE_DOT_HEIGHT, JianpuNote.OCTAVE_DOT_Y_SPACE,
            JianpuNote.OCTAVE_DOTBOX_Y_OFFSET]
          norm_num
        rw [hdy, min_eq_right (by norm_num), max_eq_left (by linarith)]
        norm_num
  simp only [firstBeamY, List.getElem?_cons_zero, Note.pos, Note.bbox, hheight,
    QRectF.bottom, hy0]
  by_cases hneg : n2._noteOctave < 0
  · have h1 : ¬ n2._noteOctave ≥ 0 := by omega
    have h2 : ¬ 0 < n2._noteOctave := by omega
    have h3 : n2._noteOctave ≠ 0 := by omega
    simp only [h1, h2, h3, if_false]
    congr 1
    ring
  · by_cases hpos : 0 < n2._noteOctave
    · have h1 : n2._noteOctave ≥ 0 := by omega
      have h3 : n2._noteOctave ≠ 0 := by omega
      simp only [h1, hpos, h3, if_true, if_false]
      congr 1
      ring
    · have h0 : n2._noteOctave = 0 := by omega
      simp only [h0, ge_iff_le, le_refl, if_true, lt_self_iff_false, if_false]
      congr 1
      ring

/-- C9 (the code at the failing input): three notes in C major with the same position
(0, 0) and the same digit box of height 14, so that the bottom edge of the digit box plus
the reserved lower-octave space is 14 + 10 + 26 = 50. Under a chord of the B below middle C
(octave -1) and under a chord of middle C (octave 0) the first beam is at 50; under a chord
of the C one octave higher (octave 1) it is at 86. -/
theorem firstBeamY_upper_octave_offset :
    JianpuNote.layout exampleFont (exampleNote 59 19) = .ok exampleLow
      ∧ JianpuNote.layout exampleFont (exampleNote 60 14) = .ok exampleMiddle
      ∧ JianpuNote.layout exampleFont (exampleNote 72 14) = .ok exampleHigh
      ∧ exampleLow._noteNumberBox = ⟨0, 0, 10, 14⟩
      ∧ exampleMiddle._noteNumberBox = ⟨0, 0, 10, 14⟩
      ∧ exampleHigh._noteNumberBox = ⟨0, 0, 10, 14⟩
      ∧ ((JianpuNote.OCTAVE_DOTBOX_Y_OFFSET + JianpuNote.OCTAVE_DOTBOX_HEIGHT : Int) : qreal)
          = 36
      ∧ firstBeamY (exampleChord exampleLow) ⟨100, 5⟩ = .ok 50
      ∧ firstBeamY (exampleChord exampleMiddle) ⟨100, 5⟩ = .ok 50
      ∧ firstBeamY (exampleChord exampleHigh) ⟨100, 5⟩ = .ok 86 := by
  decide!

end JianpuBeam

end Ms

namespace Ms

theorem mem_rangesAt_of_mem (es : List Emission) (e : Emission) (he : e ∈ es) :
    (e.range.c1, e.range.c2) ∈ rangesAt (es.map Emission.range) e.range.beamLevel := by
  simp only [rangesAt, List.mem_map, List.mem_filter, decide_eq_true_eq]
  exact ⟨e.range, ⟨⟨e, he, rfl⟩, rfl⟩, rfl⟩

namespace JianpuBeam

/-- The segments and ranges of one call of `layout`, whatever the beam held before: the new
segments correspond one to one, in order, to the emitted ranges; a range `(c1, c2)` of level
`L` has `0 ≤ L < maxBeamLevel` and `c1 ≤ c2`, and its segment lies at height
`y0 + L * (BEAM_HEIGHT + BEAM_Y_SPACE)` between the left edge of element `c1` and the right
edge of element `c2`; for every level from 0 on the ranges of that level are the maximal runs
of the indices deeper than the level; the bounding box is the union, from the null rectangle
on, of the rectangles of the new segments. -/
theorem layout_ranges_segments (elements : List ChordRest) (pagePos : QPointF)
    (cr : ChordRest) (y0 : qreal) (hhead : elements.head? = some cr)
    (hy : firstBeamY cr pagePos = .ok y0) :
    ∃ (new : List QLineF) (box : QRectF) (em : List BeamRange),
      (∀ segs bbox,
          layoutState ⟨elements, pagePos, segs, bbox⟩ = .ok ⟨segs ++ new, box, em⟩)
        ∧ List.Forall₂
            (fun r s => (0 ≤ r.beamLevel ∧ r.beamLevel < maxBeamLevel elements ∧ r.c1 ≤ r.c2)
              ∧ ∃ cr1 cr2, elements[r.c1]? = some cr1 ∧ elements[r.c2]? = some cr2
                ∧ s = ⟨cr1.pos.x + cr1.pageX - pagePos.x,
                    y0 + (r.beamLevel : qreal)
                      * ((JianpuNote.BEAM_HEIGHT + JianpuNote.BEAM_Y_SPACE : Int) : qreal),
                    cr2.pos.x + cr2.pageX - pagePos.x + cr2.bbox.width,
                    y0 + (r.beamLevel : qreal)
                      * ((JianpuNote.BEAM_HEIGHT + JianpuNote.BEAM_Y_SPACE : Int) : qreal)⟩)
            em new
        ∧ (∀ L, 0 ≤ L → IsRunsFrom elements L 0 (rangesAt em L))
        ∧ box = (new.map segmentRect).foldl Element.addbbox QRectF.null := by
  obtain ⟨es, hes, hem, hruns⟩ := layoutState_spec elements pagePos cr y0 hhead hy
  refine ⟨es.map Emission.line,
    es.foldl (fun bbox e => Element.addbbox bbox e.rect) QRectF.null,
    es.map Emission.range, ?_, ?_, hruns, ?_⟩
  · intro segs bbox
    have h1 := hes segs bbox
    rw [LayoutState.apply_fresh] at h1
    exact h1
  · apply forall₂_range_line
    intro e he
    obtain ⟨h0, h1, cr1, cr2, hc1, hc2, hline, -⟩ := hem e he
    have hle := ((hruns e.range.beamLevel h0).inside _ (mem_rangesAt_of_mem es e he)).2.1
    exact ⟨⟨h0, h1, hle⟩, cr1, cr2, hc1, hc2, hline⟩
  · have hfold := foldl_rect_of_line segmentRect es (fun e he => by
      obtain ⟨-, -, cr1, cr2, -, -, hline, hrect⟩ := hem e he
      rw [hrect, hline]
      rfl) QRectF.null
    rw [hfold]
    simp [List.foldl_map]

theorem beam_eta (b : JianpuBeam) :
    (⟨b._elements, b.pagePos, b.beamSegments, b.bbox⟩ : JianpuBeam) = b := by
  cases b
  rfl

/-- C1: on a non-empty group whose first element yields a first beam height,
`JianpuBeam::layout` returns, and the segments it appends to the segment list correspond
one to one, in order, to the logged ranges: the segment of the range `(c1, c2)` of level `L`
runs from the left edge of element `c1` to the right edge of element `c2` at the height
`y0 + L * (BEAM_HEIGHT + BEAM_Y_SPACE)` of level `L`. For every level `L ≥ 0` the index
ranges `(c1, c2)` of the segments emitted at level `L` are exactly the maximal contiguous
runs of the indices whose level depth exceeds `L`: every index of a range has depth above
`L`; every index of depth above `L` lies in one range and in no other; the ranges come in
increasing order, disjoint and with at least one index between two of them; and no range can
be extended by the index before it or the index after it. -/
theorem layout_ranges_maximal_runs (b : JianpuBeam) (cr : ChordRest) (y0 : qreal)
    (hhead : b._elements.head? = some cr) (hy : firstBeamY cr b.pagePos = .ok y0) :
    ∃ (st : LayoutState) (new : List QLineF),
      layoutState b = .ok st
        ∧ st.beamSegments = b.beamSegments ++ new
        ∧ layout b = .ok ⟨b._elements, b.pagePos, b.beamSegments ++ new, st.bbox⟩
        ∧ List.Forall₂
            (fun r s => ∃ cr1 cr2,
              b._elements[r.c1]? = some cr1 ∧ b._elements[r.c2]? = some cr2
                ∧ s = ⟨cr1.pos.x + cr1.pageX - b.pagePos.x,
                    y0 + (r.beamLevel : qreal)
                      * ((JianpuNote.BEAM_HEIGHT + JianpuNote.BEAM_Y_SPACE : Int) : qreal),
                    cr2.pos.x + cr2.pageX - b.pagePos.x + cr2.bbox.width,
                    y0 + (r.beamLevel : qreal)
                      * ((JianpuNote.BEAM_HEIGHT + JianpuNote.BEAM_Y_SPACE : Int) : qreal)⟩)
            st.emitted new
        ∧ ∀ L : Int, 0 ≤ L →
          (∀ r ∈ rangesAt st.emitted L,
              r.1 ≤ r.2 ∧ ∀ k, r.1 ≤ k → k ≤ r.2 → deeper b._elements L k)
            ∧ (∀ k, deeper b._elements L k →
                ∃ r ∈ rangesAt st.emitted L, (r.1 ≤ k ∧ k ≤ r.2)
                  ∧ ∀ s ∈ rangesAt st.emitted L, s.1 ≤ k ∧ k ≤ s.2 → s = r)
            ∧ (rangesAt st.emitted L).Pairwise (fun r s => r.2 + 1 < s.1)
            ∧ (∀ r ∈ rangesAt st.emitted L,
                (r.1 = 0 ∨ ¬ deeper b._elements L (r.1 - 1))
                  ∧ ¬ deeper b._elements L (r.2 + 1)) := by
  obtain ⟨new, box, em, hall, hf, hruns, -⟩ :=
    layout_ranges_segments b._elements b.pagePos cr y0 hhead hy
  have h1 := hall b.beamSegments b.bbox
  rw [beam_eta] at h1
  refine ⟨_, new, h1, rfl, ?_, ?_, ?_⟩
  · simp only [layout, h1]
  · refine List.Forall₂.imp ?_ hf
    rintro r s ⟨-, hrs⟩
    exact hrs
  · intro L hL
    have h := hruns L hL
    refine ⟨?_, ?_, h.ordered, h.maximal⟩
    · intro r hr
      exact (h.inside r hr).2
    · intro k hk
      obtain ⟨r, hr, hkr⟩ := h.covered k (Nat.zero_le _) hk
      exact ⟨r, hr, hkr, fun s hs hks => h.unique k r hr s hs hkr hks⟩

/-- C1 witness: the group with level depths 1, 1, 0, 1, its rests 10 wide at x = 0, 20, 40
and 60, gets exactly two segments, both of level 0: from x = 0 to x = 30 for the range
(0, 1) and from x = 60 to x = 70 for the range (3, 3). -/
theorem layout_ranges_maximal_runs_witness :
    (layoutState exampleGroup
          = .ok ⟨[⟨0, 50, 30, 50⟩, ⟨60, 50, 70, 50⟩], ⟨0, 50, 70, 12⟩,
              [⟨0, 0, 1⟩, ⟨0, 3, 3⟩]⟩
        ∧ layout exampleGroup
          = .ok ⟨exampleGroup._elements, ⟨100, 5⟩, [⟨0, 50, 30, 50⟩, ⟨60, 50, 70, 50⟩],
              ⟨0, 50, 70, 12⟩⟩
        ∧ rangesAt [⟨0, 0, 1⟩, ⟨0, 3, 3⟩] 0 = [(0, 1), (3, 3)])
      ∧ ∃ (st : LayoutState) (new : List QLineF),
        layoutState exampleGroup = .ok st
          ∧ st.beamSegments = exampleGroup.beamSegments ++ new
          ∧ layout exampleGroup
              = .ok ⟨exampleGroup._elements, exampleGroup.pagePos,
                  exampleGroup.beamSegments ++ new, st.bbox⟩
          ∧ List.Forall₂
              (fun r s => ∃ cr1 cr2,
                exampleGroup._elements[r.c1]? = some cr1
                  ∧ exampleGroup._elements[r.c2]? = some cr2
                  ∧ s = ⟨cr1.pos.x + cr1.pageX - exampleGroup.pagePos.x,
                      50 + (r.beamLevel : qreal)
                        * ((JianpuNote.BEAM_HEIGHT + JianpuNote.BEAM_Y_SPACE : Int) : qreal),
                      cr2.pos.x + cr2.pageX - exampleGroup.pagePos.x + cr2.bbox.width,
                      50 + (r.beamLevel : qreal)
                        * ((JianpuNote.BEAM_HEIGHT + JianpuNote.BEAM_Y_SPACE : Int) : qreal)⟩)
              st.emitted new
          ∧ ∀ L : Int, 0 ≤ L →
            (∀ r ∈ rangesAt st.emitted L,
                r.1 ≤ r.2 ∧ ∀ k, r.1 ≤ k → k ≤ r.2 → deeper exampleGroup._elements L k)
              ∧ (∀ k, deeper exampleGroup._elements L k →
                  ∃ r ∈ rangesAt st.emitted L, (r.1 ≤ k ∧ k ≤ r.2)
                    ∧ ∀ s ∈ rangesAt st.emitted L, s.1 ≤ k ∧ k ≤ s.2 → s = r)
              ∧ (rangesAt st.emitted L).Pairwise (fun r s => r.2 + 1 < s.1)
              ∧ (∀ r ∈ rangesAt st.emitted L,
                  (r.1 = 0 ∨ ¬ deeper exampleGroup._elements L (r.1 - 1))
                    ∧ ¬ deeper exampleGroup._elements L (r.2 + 1)) :=
  ⟨by decide!,
    layout_ranges_maximal_runs exampleGroup (exampleRest 1 0) 50 (by decide!) (by decide!)⟩

/-- C11: on a non-empty group whose first element yields a first beam height, `layout`
returns, and for every emitted range `(c1, c2)` the x-start of its segment is the left edge
`pos().x() + pageX()` of element `c1` and the x-end is the left edge of element `c2` plus the
width of the bounding box of element `c2`, both less the x of the page position of the
beam; the segment is horizontal; and for a range of one element (`c1 = c2`) the x-end
exceeds the x-start by exactly the width of that element, so the segment has non-zero
length whenever that width is not zero. -/
theorem layout_segment_x (b : JianpuBeam) (cr : ChordRest) (y0 : qreal)
    (hhead : b._elements.head? = some cr) (hy : firstBeamY cr b.pagePos = .ok y0) :
    ∃ (st : LayoutState) (new : List QLineF),
      layoutState b = .ok st
        ∧ st.beamSegments = b.beamSegments ++ new
        ∧ List.Forall₂
            (fun r s => ∃ cr1 cr2,
              b._elements[r.c1]? = some cr1 ∧ b._elements[r.c2]? = some cr2
                ∧ s.x1 = cr1.pos.x + cr1.pageX - b.pagePos.x
                ∧ s.x2 = cr2.pos.x + cr2.pageX - b.pagePos.x + cr2.bbox.width
                ∧ s.y1 = s.y2
                ∧ (r.c1 = r.c2 → s.x2 - s.x1 = cr1.bbox.width
                    ∧ (cr1.bbox.width ≠ 0 → s.x1 ≠ s.x2)))
            st.emitted new := by
  obtain ⟨new, box, em, hall, hf, -, -⟩ :=
    layout_ranges_segments b._elements b.pagePos cr y0 hhead hy
  have h1 := hall b.beamSegments b.bbox
  rw [beam_eta] at h1
  refine ⟨_, new, h1, rfl, ?_⟩
  refine List.Forall₂.imp ?_ hf
  rintro r s ⟨-, cr1, cr2, hc1, hc2, rfl⟩
  refine ⟨cr1, cr2, hc1, hc2, rfl, rfl, rfl, ?_⟩
  intro heq
  have hcc : cr1 = cr2 := by
    rw [heq, hc2] at hc1
    exact (Option.some.inj hc1).symm
  subst hcc
  constructor
  · show cr1.pos.x + cr1.pageX - b.pagePos.x + cr1.bbox.width
        - (cr1.pos.x + cr1.pageX - b.pagePos.x) = cr1.bbox.width
    ring
  · intro hw hx
    apply hw
    have : cr1.pos.x + cr1.pageX - b.pagePos.x
        = cr1.pos.x + cr1.pageX - b.pagePos.x + cr1.bbox.width := hx
    linarith

/-- C11 witness: the group of one rest of level depth 2 and width 10 gets two segments from
x = 0 to x = 10. -/
theorem layout_segment_x_witness :
    layoutState exampleSingle
        = .ok ⟨[⟨0, 50, 10, 50⟩, ⟨0, 62, 10, 62⟩], ⟨0, 50, 10, 24⟩, [⟨0, 0, 0⟩, ⟨1, 0, 0⟩]⟩
      ∧ ∃ (st : LayoutState) (new : List QLineF),
        layoutState exampleSingle = .ok st
          ∧ st.beamSegments = exampleSingle.beamSegments ++ new
          ∧ List.Forall₂
              (fun r s => ∃ cr1 cr2,
                exampleSingle._elements[r.c1]? = some cr1
                  ∧ exampleSingle._elements[r.c2]? = some cr2
                  ∧ s.x1 = cr1.pos.x + cr1.pageX - exampleSingle.pagePos.x
                  ∧ s.x2 = cr2.pos.x + cr2.pageX - exampleSingle.pagePos.x + cr2.bbox.width
                  ∧ s.y1 = s.y2
                  ∧ (r.c1 = r.c2 → s.x2 - s.x1 = cr1.bbox.width
                      ∧ (cr1.bbox.width ≠ 0 → s.x1 ≠ s.x2)))
              st.emitted new :=
  ⟨by decide!,
    layout_segment_x exampleSingle (exampleRest 2 0) 50 (by decide!) (by decide!)⟩

end JianpuBeam

namespace JianpuNote

/-- C13: `setNoteByNumber` fails its assertions exactly when the number is outside 1..7 or
the octave is outside `-MAX_OCTAVE_DOTS..MAX_OCTAVE_DOTS`, where `MAX_OCTAVE_DOTS = 4`;
otherwise it returns, and whenever it returns the stored number and octave are the
arguments, so no value is replaced by another. -/
theorem setNoteByNumber_contract (n : JianpuNote) (number octave : Int)
    (duration : DurationType) :
    MAX_OCTAVE_DOTS = 4
      ∧ (setNoteByNumber n number octave duration = .error .assertion
          ↔ ¬ (1 ≤ number ∧ number ≤ 7)
            ∨ ¬ (-MAX_OCTAVE_DOTS ≤ octave ∧ octave ≤ MAX_OCTAVE_DOTS))
      ∧ ((1 ≤ number ∧ number ≤ 7) ∧ (-MAX_OCTAVE_DOTS ≤ octave ∧ octave ≤ MAX_OCTAVE_DOTS)
          → ∃ n1, setNoteByNumber n number octave duration = .ok n1)
      ∧ (∀ n1, setNoteByNumber n number octave duration = .ok n1
          → n1._noteNumber = number ∧ n1._noteOctave = octave
            ∧ (1 ≤ number ∧ number ≤ 7)
            ∧ (-MAX_OCTAVE_DOTS ≤ octave ∧ octave ≤ MAX_OCTAVE_DOTS)) := by
  refine ⟨rfl, ?_, ?_, ?_⟩
  · by_cases h1 : 1 ≤ number ∧ number ≤ 7
    · by_cases h2 : -MAX_OCTAVE_DOTS ≤ octave ∧ octave ≤ MAX_OCTAVE_DOTS
      · simp [setNoteByNumber, h1, h2]
      · simp [setNoteByNumber, h1, h2]
    · simp [setNoteByNumber, h1]
  · rintro ⟨h1, h2⟩
    simp only [setNoteByNumber, h1, h2, not_true_eq_false, if_false]
    exact ⟨_, rfl⟩
  · intro n1 h
    by_cases h1 : 1 ≤ number ∧ number ≤ 7
    · by_cases h2 : -MAX_OCTAVE_DOTS ≤ octave ∧ octave ≤ MAX_OCTAVE_DOTS
      · simp only [setNoteByNumber, h1, h2, not_true_eq_false, if_false] at h
        cases h
        exact ⟨rfl, rfl, h1, h2⟩
      · simp [setNoteByNumber, h1, h2] at h
    · simp [setNoteByNumber, h1] at h

end JianpuNote

end Ms

namespace Ms

theorem dashRects_append (xs ys : List DrawCommand) :
    dashRects (xs ++ ys) = dashRects xs ++ dashRects ys := by
  induction xs with
  | nil => rfl
  | cons c cs ih =>
    cases c <;> simp [dashRects, ih]

namespace JianpuNote

/-- The dash loop emits `count` rectangles of the given size, the one of index `j` with its
left edge at `x + j * (width + space)`. -/
theorem dashRects_dashLoop (y width height space : qreal) :
    ∀ (count : Nat) (x : qreal),
      dashRects (dashLoop y width height space count x)
        = (List.range count).map
            (fun (j : Nat) => (⟨x + (j : qreal) * (width + space), y, width, height⟩ : QRectF)) := by
  intro count
  induction count with
  | zero =>
    intro x
    rfl
  | succ count ih =>
    intro x
    rw [List.range_succ_eq_map]
    simp only [dashLoop, dashRects, ih, List.map_cons, List.map_map]
    congr 1
    · simp
    · apply List.map_congr_left
      intro j _
      simp only [Function.comp_apply, Nat.cast_succ]
      congr 1
      ring

/-- The duration dashes a note that is not hidden draws: none unless its dash count is
positive and it is the lowest note of its chord; otherwise as many as the dash count, each
`DURATION_DASH_WIDTH` wide and `DURATION_DASH_HEIGHT` high, the one of index `j` with its
left edge at `pos().x() + bbox().width() + DURATION_DASH_X_SPACE
+ j * (DURATION_DASH_WIDTH + DURATION_DASH_X_SPACE)`. -/
theorem dashRects_draw (n : JianpuNote) (isDownNote : Bool) (spatium : qreal) :
    dashRects (draw n false isDownNote spatium)
      = if n._durationDashCount > 0 ∧ isDownNote = true then
          (List.range n._durationDashCount.toNat).map
            (fun (j : Nat) => (⟨n.pos.x + n.bbox.width + (DURATION_DASH_X_SPACE : qreal)
                + (j : qreal) * ((DURATION_DASH_WIDTH : qreal) + (DURATION_DASH_X_SPACE : qreal)),
              (NOTE_BASELINE : qreal) * spatium * (1 / 2) + n._noteNumberBox.height * (1 / 2),
              DURATION_DASH_WIDTH, DURATION_DASH_HEIGHT⟩ : QRectF))
        else [] := by
  by_cases h3 : n._durationDashCount > 0 ∧ isDownNote = true
  · have hloop := dashRects_dashLoop
      ((NOTE_BASELINE : qreal) * spatium * (1 / 2) + n._noteNumberBox.height * (1 / 2))
      (DURATION_DASH_WIDTH : qreal) (DURATION_DASH_HEIGHT : qreal)
      (DURATION_DASH_X_SPACE : qreal) n._durationDashCount.toNat
      (n.pos.x + n.bbox.width + (DURATION_DASH_X_SPACE : qreal))
    by_cases h1 : n._noteOctave < 0
    · simp only [draw, Bool.false_eq_true, if_false, h1, h3, if_true, List.cons_append,
        List.nil_append, dashRects, and_self]
      exact hloop
    · by_cases h2 : n._noteOctave > 0
      · simp only [draw, Bool.false_eq_true, if_false, h1, h2, h3, if_true, List.cons_append,
          List.nil_append, dashRects, and_self]
        exact hloop
      · simp only [draw, Bool.false_eq_true, if_false, h1, h2, h3, if_true, List.cons_append,
          List.nil_append, dashRects, and_self]
        exact hloop
  · by_cases h1 : n._noteOctave < 0
    · simp only [draw, Bool.false_eq_true, if_false, h1, h3, if_true, List.cons_append,
        List.nil_append, List.append_nil, dashRects]
    · by_cases h2 : n._noteOctave > 0
      · simp only [draw, Bool.false_eq_true, if_false, h1, h2, h3, if_true, List.cons_append,
          List.nil_append, List.append_nil, dashRects]
      · simp only [draw, Bool.false_eq_true, if_false, h1, h2, h3, if_true, List.cons_append,
          List.nil_append, List.append_nil, dashRects]

/-- The dash count `layout` stores: 3 for a whole duration, 1 for a half duration, 0 for
any other. -/
theorem layout_durationDashCount (tightBoundingRect : Int → QRectF) (n n2 : JianpuNote)
    (h : layout tightBoundingRect n = .ok n2) :
    n2._durationDashCount
      = if n.durationType = DurationType.V_WHOLE then 3
        else if n.durationType = DurationType.V_HALF then 1 else 0 := by
  simp only [layout] at h
  split at h
  · cases h
  · rename_i n1 h1
    cases h
    simp only [setNoteByPitch] at h1
    split at h1
    · cases h1
    · split at h1
      · cases h1
      · simp only [setNoteByNumber] at h1
        split at h1
        · cases h1
        · split at h1
          · cases h1
          · cases h1
            rfl

/-- C14 (at the failing input): middle C of a whole-duration chord, laid out, gets a dash
count of 3; drawn as the lowest note of its chord it emits three dash rectangles when it is
not hidden, and none at all when it is hidden. -/
theorem draw_hidden_whole_note_no_dash :
    layout exampleFont
        ⟨60, 14, some Key.C, .V_WHOLE, ⟨0, 0⟩, QRectF.null, 0, 0, 0, QRectF.null, QRectF.null⟩
      = .ok exampleWhole
      ∧ exampleWhole.durationType = DurationType.V_WHOLE
      ∧ (dashRects (draw exampleWhole false true 20)).length = 3
      ∧ draw exampleWhole true true 20 = []
      ∧ (dashRects (draw exampleWhole true true 20)).length = 0 := by
  decide!

/-- C14 (amended): for a note that `layout` has laid out and that is not hidden, the number
of dash rectangles `draw` emits is 3 if the duration of its chord is whole and the note is
the lowest note of the chord, 1 if the duration is half and the note is the lowest note, and
0 in every other case; a hidden note emits nothing. -/
theorem draw_dash_count (tightBoundingRect : Int → QRectF) (n n2 : JianpuNote)
    (isDownNote : Bool) (spatium : qreal) (h : layout tightBoundingRect n = .ok n2) :
    (dashRects (draw n2 false isDownNote spatium)).length
        = (if isDownNote = true then
            (if n.durationType = DurationType.V_WHOLE then 3
              else if n.durationType = DurationType.V_HALF then 1 else 0)
          else 0)
      ∧ draw n2 true isDownNote spatium = [] := by
  have hc := layout_durationDashCount tightBoundingRect n n2 h
  refine ⟨?_, rfl⟩
  rw [dashRects_draw, hc]
  cases isDownNote
  · simp
  · by_cases hw : n.durationType = DurationType.V_WHOLE
    · simp [hw]
    · by_cases hh : n.durationType = DurationType.V_HALF
      · simp [hh]
      · simp [hw, hh]

/-- C14 witness: the amended statement at middle C of a whole-duration chord. -/
theorem draw_dash_count_witness :
    (dashRects (draw exampleWhole false true 20)).length = 3
      ∧ draw exampleWhole true true 20 = [] :=
  draw_dash_count exampleFont
    ⟨60, 14, some Key.C, .V_WHOLE, ⟨0, 0⟩, QRectF.null, 0, 0, 0, QRectF.null, QRectF.null⟩
    exampleWhole true 20 (by decide!)

/-- C15 (at the failing input): the whole note `exampleWhole` is at x = 0 with a bounding box
of width 10, so the right edge of its box is at 10; its three dashes have their left edges
at 60, 150 and 240: the first dash starts one `DURATION_DASH_X_SPACE = 50` to the right of
the box, not at its right edge. -/
theorem draw_first_dash_after_gap :
    exampleWhole.pos.x + exampleWhole.bbox.width = 10
      ∧ dashRects (draw exampleWhole false true 20)
          = [⟨60, 7, 40, 8⟩, ⟨150, 7, 40, 8⟩, ⟨240, 7, 40, 8⟩] := by
  decide!

/-- C15 (amended): a note with a positive dash count `k`, drawn as the lowest note of its
chord and not hidden, gets `k` dash rectangles laid out from left to right; each is
`DURATION_DASH_WIDTH` wide and is preceded by a gap of `DURATION_DASH_X_SPACE`, the first
gap starting at the right edge `pos().x() + bbox().width()` of the box of the note: the
dash of index `j` has its left edge at `pos().x() + bbox().width() + DURATION_DASH_X_SPACE
+ j * (DURATION_DASH_WIDTH + DURATION_DASH_X_SPACE)`, and each dash ends
`DURATION_DASH_X_SPACE` before the next one starts, so no two dashes overlap. -/
theorem draw_dash_layout (n : JianpuNote) (spatium : qreal)
    (hk : 0 < n._durationDashCount) :
    ∃ d : Nat → QRectF,
      dashRects (draw n false true spatium) = (List.range n._durationDashCount.toNat).map d
        ∧ ∀ j : Nat,
          (d j).left = n.pos.x + n.bbox.width + (DURATION_DASH_X_SPACE : qreal)
              + (j : qreal) * ((DURATION_DASH_WIDTH : qreal) + (DURATION_DASH_X_SPACE : qreal))
            ∧ (d j).width = (DURATION_DASH_WIDTH : qreal)
            ∧ (d j).height = (DURATION_DASH_HEIGHT : qreal)
            ∧ (d j).right + (DURATION_DASH_X_SPACE : qreal) = (d (j + 1)).left
            ∧ (d j).right < (d (j + 1)).left := by
  refine ⟨fun (j : Nat) => ⟨n.pos.x + n.bbox.width + (DURATION_DASH_X_SPACE : qreal)
      + (j : qreal) * ((DURATION_DASH_WIDTH : qreal) + (DURATION_DASH_X_SPACE : qreal)),
    (NOTE_BASELINE : qreal) * spatium * (1 / 2) + n._noteNumberBox.height * (1 / 2),
    DURATION_DASH_WIDTH, DURATION_DASH_HEIGHT⟩, ?_, ?_⟩
  · rw [dashRects_draw]
    simp [hk]
  · intro j
    refine ⟨rfl, rfl, rfl, ?_, ?_⟩
    · simp only [QRectF.right, QRectF.left, Nat.cast_succ]
      ring
    · simp only [QRectF.right, QRectF.left, Nat.cast_succ, DURATION_DASH_X_SPACE,
        DURATION_DASH_WIDTH]
      norm_num
      linarith

/-- C15 witness: the amended statement at the whole note `exampleWhole`. -/
theorem draw_dash_layout_witness :
    0 < exampleWhole._durationDashCount
      ∧ ∃ d : Nat → QRectF,
        dashRects (draw exampleWhole false true 20)
            = (List.range exampleWhole._durationDashCount.toNat).map d
          ∧ ∀ j : Nat,
            (d j).left = exampleWhole.pos.x + exampleWhole.bbox.width
                + (DURATION_DASH_X_SPACE : qreal)
                + (j : qreal)
                  * ((DURATION_DASH_WIDTH : qreal) + (DURATION_DASH_X_SPACE : qreal))
              ∧ (d j).width = (DURATION_DASH_WIDTH : qreal)
              ∧ (d j).height = (DURATION_DASH_HEIGHT : qreal)
              ∧ (d j).right + (DURATION_DASH_X_SPACE : qreal) = (d (j + 1)).left
              ∧ (d j).right < (d (j + 1)).left :=
  ⟨by decide, draw_dash_layout exampleWhole 20 (by decide)⟩

end JianpuNote

end Ms

namespace Ms

theorem forall₂_right_mem {α β : Type} (P : α → β → Prop) :
    ∀ (l1 : List α) (l2 : List β), List.Forall₂ P l1 l2 → ∀ s ∈ l2, ∃ r ∈ l1, P r s := by
  intro l1 l2 h
  induction h with
  | nil =>
    intro s hs
    cases hs
  | cons hp _ ih =>
    intro s hs
    rcases List.mem_cons.mp hs with rfl | hs
    · exact ⟨_, List.mem_cons_self _ _, hp⟩
    · obtain ⟨r, hr, hrs⟩ := ih s hs
      exact ⟨r, List.mem_cons_of_mem _ hr, hrs⟩

theorem forall₂_left_mem {α β : Type} (P : α → β → Prop) :
    ∀ (l1 : List α) (l2 : List β), List.Forall₂ P l1 l2 → ∀ r ∈ l1, ∃ s ∈ l2, P r s := by
  intro l1 l2 h
  induction h with
  | nil =>
    intro r hr
    cases hr
  | cons hp _ ih =>
    intro r hr
    rcases List.mem_cons.mp hr with rfl | hr
    · exact ⟨_, List.mem_cons_self _ _, hp⟩
    · obtain ⟨s, hs, hrs⟩ := ih r hr
      exact ⟨s, List.mem_cons_of_mem _ hs, hrs⟩

theorem deeper_mono (elements : List ChordRest) (L L2 : Int) (k : Nat) (h : L ≤ L2)
    (hd : deeper elements L2 k) : deeper elements L k := by
  obtain ⟨cr, hcr, hl⟩ := hd
  exact ⟨cr, hcr, by omega⟩

theorem mem_rangesAt (emitted : List BeamRange) (L : Int) (p : Nat × Nat)
    (h : p ∈ rangesAt emitted L) :
    ∃ r ∈ emitted, r.beamLevel = L ∧ p = (r.c1, r.c2) := by
  simp only [rangesAt, List.mem_map, List.mem_filter, decide_eq_true_eq] at h
  obtain ⟨r, ⟨hr, hl⟩, hp⟩ := h
  exact ⟨r, hr, hl, hp.symm⟩

namespace JianpuBeam

theorem maxBeamLevel_attained_aux (elements : List ChordRest) :
    ∀ init : Int,
      elements.foldl (fun beamLevels c => max beamLevels c.hooks) init = init
        ∨ ∃ cr ∈ elements,
            cr.hooks = elements.foldl (fun beamLevels c => max beamLevels c.hooks) init := by
  induction elements with
  | nil =>
    intro init
    exact Or.inl rfl
  | cons c cs ih =>
    intro init
    simp only [List.foldl_cons]
    rcases ih (max init c.hooks) with h | ⟨cr, hcr, h⟩
    · rw [h]
      rcases le_total init c.hooks with hle | hle
      · rw [max_eq_right hle]
        rcases eq_or_lt_of_le hle with heq | hlt
        · exact Or.inl heq.symm
        · exact Or.inr ⟨c, List.mem_cons_self _ _, rfl⟩
      · exact Or.inl (max_eq_left hle)
    · exact Or.inr ⟨cr, List.mem_cons_of_mem _ hcr, h⟩

/-- The maximum beam level is 0 or the level depth of some element. -/
theorem maxBeamLevel_attained (elements : List ChordRest) :
    maxBeamLevel elements = 0 ∨ ∃ cr ∈ elements, cr.hooks = maxBeamLevel elements :=
  maxBeamLevel_attained_aux elements 0

/-- C16: on a group whose elements are in left-to-right order (of two elements the earlier
one has its left edge `pos().x() + pageX()` at or before that of the later one) and have
bounding boxes of non-negative width, every segment `layout` emits has its start x at or
before its end x. -/
theorem layout_segment_x_ordered (b : JianpuBeam) (cr : ChordRest) (y0 : qreal)
    (hhead : b._elements.head? = some cr) (hy : firstBeamY cr b.pagePos = .ok y0)
    (hmono : b._elements.Pairwise (fun a c => a.pos.x + a.pageX ≤ c.pos.x + c.pageX))
    (hwidth : ∀ c ∈ b._elements, 0 ≤ c.bbox.width) :
    ∃ (st : LayoutState) (new : List QLineF),
      layoutState b = .ok st
        ∧ st.beamSegments = b.beamSegments ++ new
        ∧ ∀ s ∈ new, s.x1 ≤ s.x2 := by
  obtain ⟨new, box, em, hall, hf, -, -⟩ :=
    layout_ranges_segments b._elements b.pagePos cr y0 hhead hy
  have h1 := hall b.beamSegments b.bbox
  rw [beam_eta] at h1
  refine ⟨_, new, h1, rfl, ?_⟩
  intro s hs
  obtain ⟨r, -, ⟨-, -, hle⟩, cr1, cr2, hc1, hc2, rfl⟩ := forall₂_right_mem _ _ _ hf s hs
  have hw := hwidth cr2 (List.getElem?_mem hc2)
  have hm : cr1.pos.x + cr1.pageX ≤ cr2.pos.x + cr2.pageX := by
    rcases eq_or_lt_of_le hle with heq | hlt
    · rw [heq, hc2] at hc1
      cases hc1
      exact le_refl _
    · obtain ⟨h1l, h1e⟩ := List.getElem?_eq_some.mp hc1
      obtain ⟨h2l, h2e⟩ := List.getElem?_eq_some.mp hc2
      have := List.pairwise_iff_getElem.mp hmono r.c1 r.c2 h1l h2l hlt
      rw [h1e, h2e] at this
      exact this
  show cr1.pos.x + cr1.pageX - b.pagePos.x
    ≤ cr2.pos.x + cr2.pageX - b.pagePos.x + cr2.bbox.width
  linarith

/-- C16 witness: the group of four rests at x = 0, 20, 40, 60, each 10 wide. -/
theorem layout_segment_x_ordered_witness :
    layout exampleGroup
        = .ok ⟨exampleGroup._elements, ⟨100, 5⟩,
            [⟨0, 50, 30, 50⟩, ⟨60, 50, 70, 50⟩], ⟨0, 50, 70, 12⟩⟩
      ∧ ∃ (st : LayoutState) (new : List QLineF),
        layoutState exampleGroup = .ok st
          ∧ st.beamSegments = exampleGroup.beamSegments ++ new
          ∧ ∀ s ∈ new, s.x1 ≤ s.x2 :=
  ⟨by decide!,
    layout_segment_x_ordered exampleGroup (exampleRest 1 0) 50 (by decide!) (by decide!)
      (by decide!) (by decide!)⟩

/-- C17 (amended): `layout` emits segments exactly at the levels `0 ≤ L < M`, where `M` is
the maximum level depth of the elements (at least 0). The appended segments correspond one to
one, in order, to the logged ranges, the segment of a range of level `L` lying at the height
`y0 + L * (BEAM_HEIGHT + BEAM_Y_SPACE)` of that level; every logged range and every appended
segment has a level in `0 ≤ L < M`; each such level gets at least one range and one segment;
a level that no element exceeds gets none; and when all elements have level depth 0 no
segment is emitted: the segment list is left as it was before the call. -/
theorem layout_levels (b : JianpuBeam) (cr : ChordRest) (y0 : qreal)
    (hhead : b._elements.head? = some cr) (hy : firstBeamY cr b.pagePos = .ok y0) :
    (0 ≤ maxBeamLevel b._elements
        ∧ (∀ c ∈ b._elements, c.hooks ≤ maxBeamLevel b._elements)
        ∧ (maxBeamLevel b._elements = 0
            ∨ ∃ c ∈ b._elements, c.hooks = maxBeamLevel b._elements))
      ∧ ∃ (st : LayoutState) (new : List QLineF),
        layoutState b = .ok st
          ∧ st.beamSegments = b.beamSegments ++ new
          ∧ layout b = .ok ⟨b._elements, b.pagePos, b.beamSegments ++ new, st.bbox⟩
          ∧ new.length = st.emitted.length
          ∧ List.Forall₂
              (fun r s => s.y1 = y0 + (r.beamLevel : qreal)
                  * ((JianpuNote.BEAM_HEIGHT + JianpuNote.BEAM_Y_SPACE : Int) : qreal)
                ∧ s.y2 = s.y1)
              st.emitted new
          ∧ (∀ r ∈ st.emitted, 0 ≤ r.beamLevel ∧ r.beamLevel < maxBeamLevel b._elements)
          ∧ (∀ s ∈ new, ∃ L : Int, 0 ≤ L ∧ L < maxBeamLevel b._elements
              ∧ s.y1 = y0 + (L : qreal)
                  * ((JianpuNote.BEAM_HEIGHT + JianpuNote.BEAM_Y_SPACE : Int) : qreal))
          ∧ (∀ L : Int, 0 ≤ L → L < maxBeamLevel b._elements →
              rangesAt st.emitted L ≠ []
                ∧ ∃ s ∈ new, s.y1 = y0 + (L : qreal)
                    * ((JianpuNote.BEAM_HEIGHT + JianpuNote.BEAM_Y_SPACE : Int) : qreal))
          ∧ (∀ L : Int, maxBeamLevel b._elements ≤ L → rangesAt st.emitted L = [])
          ∧ (∀ L : Int, (∀ i, ¬ deeper b._elements L i) → rangesAt st.emitted L = [])
          ∧ ((∀ c ∈ b._elements, c.hooks = 0) →
              new = [] ∧ st.emitted = [] ∧ st.beamSegments = b.beamSegments) := by
  obtain ⟨hmax0, hmax⟩ := maxBeamLevel_spec b._elements
  refine ⟨⟨hmax0, hmax, maxBeamLevel_attained b._elements⟩, ?_⟩
  obtain ⟨new, box, em, hall, hf, hruns, -⟩ :=
    layout_ranges_segments b._elements b.pagePos cr y0 hhead hy
  have h1 := hall b.beamSegments b.bbox
  rw [beam_eta] at h1
  have hlev : ∀ r ∈ em, 0 ≤ r.beamLevel ∧ r.beamLevel < maxBeamLevel b._elements := by
    intro r hr
    obtain ⟨s, -, ⟨h0, hm, -⟩, -⟩ := forall₂_left_mem _ _ _ hf r hr
    exact ⟨h0, hm⟩
  have hnone : ∀ L : Int, (∀ r ∈ em, r.beamLevel ≠ L) → rangesAt em L = [] := by
    intro L hL
    apply List.eq_nil_iff_forall_not_mem.mpr
    intro p hp
    obtain ⟨r, hr, hl, -⟩ := mem_rangesAt em L p hp
    exact hL r hr hl
  have hsome : ∀ L : Int, 0 ≤ L → L < maxBeamLevel b._elements → rangesAt em L ≠ [] := by
    intro L h0 hlt hnil
    rcases maxBeamLevel_attained b._elements with hz | ⟨c, hc, hcm⟩
    · omega
    · obtain ⟨i, hi⟩ := List.mem_iff_getElem?.mp hc
      obtain ⟨r, hr, -⟩ := (hruns L h0).covered i (Nat.zero_le _) ⟨c, hi, by omega⟩
      rw [hnil] at hr
      cases hr
  refine ⟨_, new, h1, rfl, ?_, hf.length_eq.symm, ?_, hlev, ?_, ?_, ?_, ?_, ?_⟩
  · simp only [layout, h1]
  · refine List.Forall₂.imp ?_ hf
    rintro r s ⟨-, cr1, cr2, -, -, rfl⟩
    exact ⟨rfl, rfl⟩
  · intro s hs
    obtain ⟨r, -, ⟨h0, hm, -⟩, cr1, cr2, -, -, rfl⟩ := forall₂_right_mem _ _ _ hf s hs
    exact ⟨r.beamLevel, h0, hm, rfl⟩
  · intro L h0 hlt
    refine ⟨hsome L h0 hlt, ?_⟩
    obtain ⟨p, hp⟩ := List.exists_mem_of_ne_nil _ (hsome L h0 hlt)
    obtain ⟨r, hr, hl, -⟩ := mem_rangesAt em L p hp
    obtain ⟨s, hs, -, cr1, cr2, -, -, rfl⟩ := forall₂_left_mem _ _ _ hf r hr
    exact ⟨_, hs, by rw [hl]⟩
  · intro L hL
    exact hnone L (fun r hr => by have := (hlev r hr).2; omega)
  · intro L hL
    by_cases h0 : 0 ≤ L
    · apply List.eq_nil_iff_forall_not_mem.mpr
      intro p hp
      obtain ⟨-, hle, hin⟩ := (hruns L h0).inside p hp
      exact hL p.1 (hin p.1 (le_refl _) hle)
    · exact hnone L (fun r hr => by have := (hlev r hr).1; omega)
  · intro hzero
    have hem : em = [] := by
      apply List.eq_nil_iff_forall_not_mem.mpr
      intro r hr
      obtain ⟨h0, hm⟩ := hlev r hr
      rcases maxBeamLevel_attained b._elements with hz | ⟨c, hc, hcm⟩
      · omega
      · have := hzero c hc
        omega
    have hlen := hf.length_eq
    rw [hem] at hlen
    have hnew : new = [] := List.length_eq_zero.mp hlen.symm
    refine ⟨hnew, hem, ?_⟩
    rw [hnew]
    exact List.append_nil _

/-- C17 witness: the group with level depths 2, 1, 2, 0, 1 has maximum level 2 and gets two
segments at height 50 for level 0 and two at height 62 for level 1; the group of two rests
of level depth 0 that holds no segment gets none. -/
theorem layout_levels_witness :
    (maxBeamLevel exampleNested._elements = 2
        ∧ layoutState exampleNested
          = .ok ⟨[⟨0, 50, 50, 50⟩, ⟨80, 50, 90, 50⟩, ⟨0, 62, 10, 62⟩, ⟨40, 62, 50, 62⟩],
              ⟨0, 50, 90, 24⟩, [⟨0, 0, 2⟩, ⟨0, 4, 4⟩, ⟨1, 0, 0⟩, ⟨1, 2, 2⟩]⟩
        ∧ layoutState exampleFlat = .ok ⟨[], QRectF.null, []⟩)
      ∧ (0 ≤ maxBeamLevel exampleNested._elements
          ∧ (∀ c ∈ exampleNested._elements, c.hooks ≤ maxBeamLevel exampleNested._elements)
          ∧ (maxBeamLevel exampleNested._elements = 0
              ∨ ∃ c ∈ exampleNested._elements,
                  c.hooks = maxBeamLevel exampleNested._elements))
        ∧ ∃ (st : LayoutState) (new : List QLineF),
          layoutState exampleNested = .ok st
            ∧ st.beamSegments = exampleNested.beamSegments ++ new
            ∧ layout exampleNested
                = .ok ⟨exampleNested._elements, exampleNested.pagePos,
                    exampleNested.beamSegments ++ new, st.bbox⟩
            ∧ new.length = st.emitted.length
            ∧ List.Forall₂
                (fun r s => s.y1 = 50 + (r.beamLevel : qreal)
                    * ((JianpuNote.BEAM_HEIGHT + JianpuNote.BEAM_Y_SPACE : Int) : qreal)
                  ∧ s.y2 = s.y1)
                st.emitted new
            ∧ (∀ r ∈ st.emitted,
                0 ≤ r.beamLevel ∧ r.beamLevel < maxBeamLevel exampleNested._elements)
            ∧ (∀ s ∈ new, ∃ L : Int, 0 ≤ L ∧ L < maxBeamLevel exampleNested._elements
                ∧ s.y1 = 50 + (L : qreal)
                    * ((JianpuNote.BEAM_HEIGHT + JianpuNote.BEAM_Y_SPACE : Int) : qreal))
            ∧ (∀ L : Int, 0 ≤ L → L < maxBeamLevel exampleNested._elements →
                rangesAt st.emitted L ≠ []
                  ∧ ∃ s ∈ new, s.y1 = 50 + (L : qreal)
                      * ((JianpuNote.BEAM_HEIGHT + JianpuNote.BEAM_Y_SPACE : Int) : qreal))
            ∧ (∀ L : Int, maxBeamLevel exampleNested._elements ≤ L →
                rangesAt st.emitted L = [])
            ∧ (∀ L : Int, (∀ i, ¬ deeper exampleNested._elements L i) →
                rangesAt st.emitted L = [])
            ∧ ((∀ c ∈ exampleNested._elements, c.hooks = 0) →
                new = [] ∧ st.emitted = [] ∧ st.beamSegments = exampleNested.beamSegments) :=
  ⟨by decide!,
    layout_levels exampleNested (exampleRest 2 0) 50 (by decide!) (by decide!)⟩

/-- C17 (at the failing input): the group of two rests of level depth 0 that holds one segment
from an earlier pass has maximum level 0 and no element deeper than level 0; `layout`
returns on it without emitting a range, and the segment list after the call is not empty:
it still holds the old segment. The bounding box is reset. -/
theorem layout_flat_group_keeps_segments :
    (∀ c ∈ exampleFlatStale._elements, c.hooks = 0)
      ∧ maxBeamLevel exampleFlatStale._elements = 0
      ∧ exampleFlatStale.beamSegments = [⟨0, 50, 40, 50⟩]
      ∧ layoutState exampleFlatStale = .ok ⟨[⟨0, 50, 40, 50⟩], QRectF.null, []⟩
      ∧ layout exampleFlatStale
          = .ok ⟨exampleFlatStale._elements, ⟨100, 5⟩, [⟨0, 50, 40, 50⟩], QRectF.null⟩
      ∧ (∀ b1, layout exampleFlatStale = .ok b1 → b1.beamSegments ≠ []) := by
  refine ⟨by decide!, by decide!, by decide!, by decide!, by decide!, ?_⟩
  intro b1 h
  have h2 : layout exampleFlatStale
      = .ok ⟨exampleFlatStale._elements, ⟨100, 5⟩, [⟨0, 50, 40, 50⟩], QRectF.null⟩ := by
    decide!
  rw [h2] at h
  cases h
  exact List.cons_ne_nil _ _

/-- C20: for levels `0 ≤ L < L2`, each index range `layout` emits at level `L2` lies inside
a range emitted at level `L`, and inside no other range of level `L`. -/
theorem layout_levels_nested (b : JianpuBeam) (cr : ChordRest) (y0 : qreal)
    (hhead : b._elements.head? = some cr) (hy : firstBeamY cr b.pagePos = .ok y0) :
    ∃ st, layoutState b = .ok st ∧ ∀ L L2 : Int, 0 ≤ L → L < L2 →
      ∀ r2 ∈ rangesAt st.emitted L2,
        ∃ r ∈ rangesAt st.emitted L, (r.1 ≤ r2.1 ∧ r2.2 ≤ r.2)
          ∧ ∀ s ∈ rangesAt st.emitted L, s.1 ≤ r2.1 ∧ r2.2 ≤ s.2 → s = r := by
  obtain ⟨new, box, em, hall, -, hruns, -⟩ :=
    layout_ranges_segments b._elements b.pagePos cr y0 hhead hy
  have h1 := hall b.beamSegments b.bbox
  rw [beam_eta] at h1
  refine ⟨_, h1, ?_⟩
  intro L L2 h0 hlt r2 hr2
  have hL := hruns L h0
  have hL2 := hruns L2 (by omega)
  obtain ⟨-, hle2, hin2⟩ := hL2.inside r2 hr2
  have hd1 : deeper b._elements L r2.1 :=
    deeper_mono _ L L2 _ (le_of_lt hlt) (hin2 r2.1 (le_refl _) hle2)
  obtain ⟨r, hr, hr1, hr2a⟩ := hL.covered r2.1 (Nat.zero_le _) hd1
  have hend : r2.2 ≤ r.2 := by
    by_contra hcon
    have hd : deeper b._elements L (r.2 + 1) :=
      deeper_mono _ L L2 _ (le_of_lt hlt) (hin2 (r.2 + 1) (by omega) (by omega))
    exact (hL.maximal r hr).2 hd
  refine ⟨r, hr, ⟨hr1, hend⟩, ?_⟩
  intro s hs hsr
  exact hL.unique r2.1 r hr s hs ⟨hr1, hr2a⟩ ⟨hsr.1, by omega⟩

/-- C20 witness: in the group with level depths 2, 1, 2, 0, 1 the ranges (0, 0) and (2, 2)
of level 1 lie inside the range (0, 2) of level 0. -/
theorem layout_levels_nested_witness :
    (∃ st, layoutState exampleNested = .ok st
        ∧ rangesAt st.emitted 0 = [(0, 2), (4, 4)]
        ∧ rangesAt st.emitted 1 = [(0, 0), (2, 2)])
      ∧ ∃ st, layoutState exampleNested = .ok st ∧ ∀ L L2 : Int, 0 ≤ L → L < L2 →
        ∀ r2 ∈ rangesAt st.emitted L2,
          ∃ r ∈ rangesAt st.emitted L, (r.1 ≤ r2.1 ∧ r2.2 ≤ r.2)
            ∧ ∀ s ∈ rangesAt st.emitted L, s.1 ≤ r2.1 ∧ r2.2 ≤ s.2 → s = r :=
  ⟨⟨⟨[⟨0, 50, 50, 50⟩, ⟨80, 50, 90, 50⟩, ⟨0, 62, 10, 62⟩, ⟨40, 62, 50, 62⟩],
        ⟨0, 50, 90, 24⟩, [⟨0, 0, 2⟩, ⟨0, 4, 4⟩, ⟨1, 0, 0⟩, ⟨1, 2, 2⟩]⟩,
      by decide!, by decide!, by decide!⟩,
    layout_levels_nested exampleNested (exampleRest 2 0) 50 (by decide!) (by decide!)⟩

end JianpuBeam

end Ms

namespace Ms

namespace QRectF

theorem covers_refl (a : QRectF) : a.covers a :=
  ⟨le_refl _, le_refl _, le_refl _, le_refl _⟩

theorem covers_trans {a b c : QRectF} (hab : a.covers b) (hbc : b.covers c) : a.covers c :=
  ⟨le_trans hab.1 hbc.1, le_trans hbc.2.1 hab.2.1, le_trans hab.2.2.1 hbc.2.2.1,
    le_trans hbc.2.2.2 hab.2.2.2⟩

theorem null_united (r : QRectF) : QRectF.null.united r = r := by
  simp [united, null, isNull]

/-- The union of two rectangles of positive width and height: it has positive width and
height, covers both, and is covered by every rectangle that covers both. -/
theorem united_proper (a r : QRectF) (ha : 0 < a.width ∧ 0 < a.height)
    (hr : 0 < r.width ∧ 0 < r.height) :
    (0 < (a.united r).width ∧ 0 < (a.united r).height)
      ∧ (a.united r).covers a ∧ (a.united r).covers r
      ∧ ∀ R : QRectF, R.covers a → R.covers r → R.covers (a.united r) := by
  have hu : a.united r
      = ⟨min a.x r.x, min a.y r.y, max (a.x + a.width) (r.x + r.width) - min a.x r.x,
          max (a.y + a.height) (r.y + r.height) - min a.y r.y⟩ := by
    have h1 : ¬ a.width < 0 := not_lt.mpr (le_of_lt ha.1)
    have h2 : ¬ a.height < 0 := not_lt.mpr (le_of_lt ha.2)
    have h3 : ¬ r.width < 0 := not_lt.mpr (le_of_lt hr.1)
    have h4 : ¬ r.height < 0 := not_lt.mpr (le_of_lt hr.2)
    have h5 : a.width ≠ 0 := ne_of_gt ha.1
    have h6 : r.width ≠ 0 := ne_of_gt hr.1
    simp [united, isNull, h1, h2, h3, h4, h5, h6]
  rw [hu]
  have hx1 : min a.x r.x ≤ a.x := min_le_left _ _
  have hx2 : min a.x r.x ≤ r.x := min_le_right _ _
  have hy1 : min a.y r.y ≤ a.y := min_le_left _ _
  have hy2 : min a.y r.y ≤ r.y := min_le_right _ _
  have hX1 : a.x + a.width ≤ max (a.x + a.width) (r.x + r.width) := le_max_left _ _
  have hX2 : r.x + r.width ≤ max (a.x + a.width) (r.x + r.width) := le_max_right _ _
  have hY1 : a.y + a.height ≤ max (a.y + a.height) (r.y + r.height) := le_max_left _ _
  have hY2 : r.y + r.height ≤ max (a.y + a.height) (r.y + r.height) := le_max_right _ _
  refine ⟨⟨?_, ?_⟩, ?_, ?_, ?_⟩
  · show 0 < max (a.x + a.width) (r.x + r.width) - min a.x r.x
    linarith [ha.1]
  · show 0 < max (a.y + a.height) (r.y + r.height) - min a.y r.y
    linarith [ha.2]
  · refine ⟨hx1, ?_, hy1, ?_⟩
    · show a.x + a.width
        ≤ min a.x r.x + (max (a.x + a.width) (r.x + r.width) - min a.x r.x)
      linarith
    · show a.y + a.height
        ≤ min a.y r.y + (max (a.y + a.height) (r.y + r.height) - min a.y r.y)
      linarith
  · refine ⟨hx2, ?_, hy2, ?_⟩
    · show r.x + r.width
        ≤ min a.x r.x + (max (a.x + a.width) (r.x + r.width) - min a.x r.x)
      linarith
    · show r.y + r.height
        ≤ min a.y r.y + (max (a.y + a.height) (r.y + r.height) - min a.y r.y)
      linarith
  · intro R hRa hRr
    obtain ⟨a1, a2, a3, a4⟩ := hRa
    obtain ⟨r1, r2, r3, r4⟩ := hRr
    simp only [left, right, top, bottom] at a1 a2 a3 a4 r1 r2 r3 r4
    refine ⟨?_, ?_, ?_, ?_⟩
    · show R.x ≤ min a.x r.x
      exact le_min a1 r1
    · show min a.x r.x + (max (a.x + a.width) (r.x + r.width) - min a.x r.x)
        ≤ R.x + R.width
      have := max_le a2 r2
      linarith
    · show R.y ≤ min a.y r.y
      exact le_min a3 r3
    · show min a.y r.y + (max (a.y + a.height) (r.y + r.height) - min a.y r.y)
        ≤ R.y + R.height
      have := max_le a4 r4
      linarith

/-- Adding rectangles of positive width and height, one after the other, to a rectangle of
positive width and height yields the smallest rectangle that covers all of them. -/
theorem foldl_united_proper (rs : List QRectF) :
    ∀ a : QRectF, (0 < a.width ∧ 0 < a.height) → (∀ r ∈ rs, 0 < r.width ∧ 0 < r.height) →
      (rs.foldl Element.addbbox a).covers a
        ∧ (∀ r ∈ rs, (rs.foldl Element.addbbox a).covers r)
        ∧ ∀ R : QRectF, R.covers a → (∀ r ∈ rs, R.covers r) →
            R.covers (rs.foldl Element.addbbox a) := by
  induction rs with
  | nil =>
    intro a _ _
    exact ⟨covers_refl a, fun r hr => (by cases hr), fun R hR _ => hR⟩
  | cons r rs ih =>
    intro a ha hrs
    obtain ⟨hup, hua, hur, hleast⟩ :=
      united_proper a r ha (hrs r (List.mem_cons_self _ _))
    obtain ⟨h1, h2, h3⟩ := ih (a.united r) hup (fun s hs => hrs s (List.mem_cons_of_mem _ hs))
    simp only [List.foldl_cons, Element.addbbox]
    refine ⟨covers_trans h1 hua, ?_, ?_⟩
    · intro s hs
      rcases List.mem_cons.mp hs with rfl | hs
      · exact covers_trans h1 hur
      · exact h2 s hs
    · intro R hRa hRs
      exact h3 R (hleast R hRa (hRs r (List.mem_cons_self _ _)))
        (fun s hs => hRs s (List.mem_cons_of_mem _ hs))

/-- The union, from the null rectangle on, of a list of rectangles of positive width and
height: the null rectangle for the empty list, otherwise the smallest rectangle that covers
all of them. -/
theorem foldl_united_null (rs : List QRectF) (hrs : ∀ r ∈ rs, 0 < r.width ∧ 0 < r.height) :
    (rs = [] → rs.foldl Element.addbbox QRectF.null = QRectF.null)
      ∧ (∀ r ∈ rs, (rs.foldl Element.addbbox QRectF.null).covers r)
      ∧ ∀ R : QRectF, rs ≠ [] → (∀ r ∈ rs, R.covers r) →
          R.covers (rs.foldl Element.addbbox QRectF.null) := by
  cases rs with
  | nil =>
    exact ⟨fun _ => rfl, fun r hr => (by cases hr), fun R hne _ => absurd rfl hne⟩
  | cons r rs =>
    obtain ⟨h1, h2, h3⟩ := foldl_united_proper rs r (hrs r (List.mem_cons_self _ _))
      (fun s hs => hrs s (List.mem_cons_of_mem _ hs))
    simp only [List.foldl_cons, Element.addbbox, null_united]
    refine ⟨fun h => (by cases h), ?_, ?_⟩
    · intro s hs
      rcases List.mem_cons.mp hs with rfl | hs
      · exact h1
      · exact h2 s hs
    · intro R _ hRs
      exact h3 R (hRs r (List.mem_cons_self _ _))
        (fun s hs => hRs s (List.mem_cons_of_mem _ hs))

end QRectF

namespace JianpuBeam

/-- A call of `layoutState` that returns was made on a group with a first element, for
which the first beam height is defined. -/
theorem layoutState_ok_inv (b : JianpuBeam) (st : LayoutState) (h : layoutState b = .ok st) :
    ∃ cr y0, b._elements.head? = some cr ∧ firstBeamY cr b.pagePos = .ok y0 := by
  simp only [layoutState] at h
  cases hhead : b._elements.head? with
  | none => simp [hhead] at h
  | some cr =>
    cases hy : firstBeamY cr b.pagePos with
    | error e => simp [hhead, hy] at h
    | ok y0 => exact ⟨cr, y0, rfl, hy⟩

/-- C18: after a call of `layout` whose new segments all have start x < end x, the bounding
box of the beam is the union, from the null rectangle on, of the rectangles
`(x1, y, x2 - x1, BEAM_HEIGHT + BEAM_Y_SPACE)` of the new segments, whatever bounding box
the beam held before: it is the null rectangle when there is no new segment; it covers the
rectangle of every new segment; and every rectangle that covers them all covers it. -/
theorem layout_bbox_union (b : JianpuBeam) (st : LayoutState) (new : List QLineF)
    (h : layoutState b = .ok st) (hnew : st.beamSegments = b.beamSegments ++ new)
    (hx : ∀ s ∈ new, s.x1 < s.x2) :
    st.bbox = (new.map segmentRect).foldl Element.addbbox QRectF.null
      ∧ (∀ segs bbox st2, layoutState ⟨b._elements, b.pagePos, segs, bbox⟩ = .ok st2
          → st2.bbox = st.bbox)
      ∧ (new = [] → st.bbox = QRectF.null)
      ∧ (∀ s ∈ new, st.bbox.covers (segmentRect s))
      ∧ (∀ R : QRectF, new ≠ [] → (∀ s ∈ new, R.covers (segmentRect s))
          → R.covers st.bbox) := by
  obtain ⟨cr, y0, hhead, hy⟩ := layoutState_ok_inv b st h
  obtain ⟨new2, box, em, hall, -, -, hbox⟩ :=
    layout_ranges_segments b._elements b.pagePos cr y0 hhead hy
  have h1 := hall b.beamSegments b.bbox
  rw [beam_eta, h] at h1
  cases h1
  have hn : new = new2 := List.append_cancel_left hnew.symm
  subst hn
  have hproper : ∀ r ∈ new.map segmentRect, 0 < r.width ∧ 0 < r.height := by
    intro r hr
    obtain ⟨s, hs, rfl⟩ := List.mem_map.mp hr
    refine ⟨?_, ?_⟩
    · show 0 < s.x2 - s.x1
      linarith [hx s hs]
    · show (0 : qreal) < ((JianpuNote.BEAM_HEIGHT + JianpuNote.BEAM_Y_SPACE : Int) : qreal)
      simp only [JianpuNote.BEAM_HEIGHT, JianpuNote.BEAM_Y_SPACE]
      norm_num
  obtain ⟨f1, f2, f3⟩ := QRectF.foldl_united_null (new.map segmentRect) hproper
  refine ⟨hbox, ?_, ?_, ?_, ?_⟩
  · intro segs bbox st2 h2
    rw [hall segs bbox] at h2
    cases h2
    rfl
  · intro hnil
    show box = QRectF.null
    rw [hbox]
    exact f1 (by rw [hnil]; rfl)
  · intro s hs
    show box.covers (segmentRect s)
    rw [hbox]
    exact f2 _ (List.mem_map_of_mem _ hs)
  · intro R hne hR
    show R.covers box
    rw [hbox]
    refine f3 R ?_ ?_
    · intro hmap
      exact hne (List.map_eq_nil_iff.mp hmap)
    · intro r hr
      obtain ⟨s, hs, rfl⟩ := List.mem_map.mp hr
      exact hR s hs

/-- C18 witness: the group with level depths 2, 1, 2, 0, 1 and a beam that holds an
arbitrary bounding box before the call; the four new segments span x from 0 to 90 and y from
50 to 74, and the bounding box after the call is (0, 50, 90, 24). -/
theorem layout_bbox_union_witness :
    layoutState ⟨exampleNested._elements, ⟨100, 5⟩, [], ⟨7, 7, 7, 7⟩⟩
        = .ok ⟨[⟨0, 50, 50, 50⟩, ⟨80, 50, 90, 50⟩, ⟨0, 62, 10, 62⟩, ⟨40, 62, 50, 62⟩],
            ⟨0, 50, 90, 24⟩, [⟨0, 0, 2⟩, ⟨0, 4, 4⟩, ⟨1, 0, 0⟩, ⟨1, 2, 2⟩]⟩
      ∧ (∀ s ∈ [(⟨0, 50, 50, 50⟩ : QLineF), ⟨80, 50, 90, 50⟩, ⟨0, 62, 10, 62⟩,
            ⟨40, 62, 50, 62⟩],
          (⟨0, 50, 90, 24⟩ : QRectF).covers (segmentRect s))
      ∧ (∀ R : QRectF,
          (∀ s ∈ [(⟨0, 50, 50, 50⟩ : QLineF), ⟨80, 50, 90, 50⟩, ⟨0, 62, 10, 62⟩,
            ⟨40, 62, 50, 62⟩], R.covers (segmentRect s))
          → R.covers ⟨0, 50, 90, 24⟩) :=
  have hw := layout_bbox_union ⟨exampleNested._elements, ⟨100, 5⟩, [], ⟨7, 7, 7, 7⟩⟩
    ⟨[⟨0, 50, 50, 50⟩, ⟨80, 50, 90, 50⟩, ⟨0, 62, 10, 62⟩, ⟨40, 62, 50, 62⟩],
      ⟨0, 50, 90, 24⟩, [⟨0, 0, 2⟩, ⟨0, 4, 4⟩, ⟨1, 0, 0⟩, ⟨1, 2, 2⟩]⟩
    [⟨0, 50, 50, 50⟩, ⟨80, 50, 90, 50⟩, ⟨0, 62, 10, 62⟩, ⟨40, 62, 50, 62⟩]
    (by decide!) (by decide!) (by decide!)
  ⟨by decide!, hw.2.2.2.1, fun R hR => hw.2.2.2.2 R (by decide) hR⟩

end JianpuBeam

end Ms

namespace Ms

namespace JianpuNote

/-- For each of the fifteen keys the read of `keyNotePitch` is in bounds and yields a pitch
from 60 to 71. -/
theorem keyNotePitch_lookup (key : Int) (hmin : Key.MIN ≤ key) (hmax : key ≤ Key.MAX) :
    ∃ basePitch, arrayAt keyNotePitch (key - Key.MIN) = .ok basePitch
      ∧ 60 ≤ basePitch ∧ basePitch ≤ 71 := by
  have hmin2 : (-7 : Int) ≤ key := hmin
  have hmax2 : key ≤ (7 : Int) := hmax
  have hk : key = -7 ∨ key = -6 ∨ key = -5 ∨ key = -4 ∨ key = -3 ∨ key = -2 ∨ key = -1
      ∨ key = 0 ∨ key = 1 ∨ key = 2 ∨ key = 3 ∨ key = 4 ∨ key = 5 ∨ key = 6 ∨ key = 7 := by
    omega
  rcases hk with h | h | h | h | h | h | h | h | h | h | h | h | h | h | h <;> subst h <;>
    exact ⟨_, rfl, by decide, by decide⟩

/-- When `setNoteByPitch` returns, for a key of the table with reference pitch `basePitch`:
the degree is always in 1..7, so the call returns exactly when the octave is within
`-MAX_OCTAVE_DOTS..MAX_OCTAVE_DOTS`, which is when the pitch is from `basePitch - 47` to
`basePitch + 59`. -/
theorem setNoteByPitch_ok_iff (n : JianpuNote) (pitch tpc : Int) (duration : DurationType)
    (basePitch : Int) (hb : arrayAt keyNotePitch (n.key - Key.MIN) = .ok basePitch) :
    (∃ n1, setNoteByPitch n pitch tpc duration = .ok n1)
      ↔ basePitch - 47 ≤ pitch ∧ pitch ≤ basePitch + 59 := by
  obtain ⟨d, hd, hd1, hd7⟩ := tpc2numberNoteByKey_degree tpc n.key
  have hoct := pitch2octaveByKey_eq pitch n.key basePitch hb
  have hrange : (-4 ≤ (if pitch < basePitch ∧ (pitch - basePitch) % 12 = 0
          then (pitch - basePitch) / 12 - 1 else (pitch - basePitch) / 12)
        ∧ (if pitch < basePitch ∧ (pitch - basePitch) % 12 = 0
          then (pitch - basePitch) / 12 - 1 else (pitch - basePitch) / 12) ≤ 4)
      ↔ (basePitch - 47 ≤ pitch ∧ pitch ≤ basePitch + 59) := by
    split <;> omega
  have h17 : 1 ≤ d ∧ d ≤ 7 := ⟨hd1, hd7⟩
  simp only [setNoteByPitch, hd, hoct, setNoteByNumber, MAX_OCTAVE_DOTS, h17,
    not_true_eq_false, if_false]
  by_cases hp : basePitch - 47 ≤ pitch ∧ pitch ≤ basePitch + 59
  · have hr := hrange.mpr hp
    refine ⟨fun _ => hp, fun _ => ?_⟩
    simp only [hr, not_true_eq_false, if_false]
    exact ⟨_, rfl⟩
  · have hr := mt hrange.mp hp
    refine ⟨?_, fun h => absurd h hp⟩
    rintro ⟨n1, h⟩
    simp only [hr, not_false_eq_true, if_true] at h
    cases h

/-- C19 (the code at the failing input): pitch 0 is accepted by the assertion of `setPitch`
(it is within 0..127), and in C major (reference pitch 60) the key-table read is in bounds
and the degree of tpc 14 is 1; but the octave of pitch 0 comes out as -6, below
`-MAX_OCTAVE_DOTS = -4`, so `setNoteByNumber` fails its assertion and so do
`setNoteByPitch` and `setPitch`. At the other end pitch 127 yields octave 5, above
`MAX_OCTAVE_DOTS`. In C major the pitches 12 and 120 fail as well, while 13 and 119 pass
with the octaves -4 and 4. -/
theorem setPitch_accepted_pitch_trips_assertion :
    ((0 : Int) ≤ 0 ∧ (0 : Int) ≤ 127)
      ∧ arrayAt keyNotePitch (Key.C - Key.MIN) = .ok 60
      ∧ tpc2numberNoteByKey 14 Key.C = .ok 1
      ∧ pitch2octaveByKey 0 Key.C = .ok (-6)
      ∧ MAX_OCTAVE_DOTS = 4
      ∧ setNoteByNumber (exampleNote 0 14) 1 (-6) .V_EIGHTH = .error .assertion
      ∧ setNoteByPitch (exampleNote 0 14) 0 14 .V_EIGHTH = .error .assertion
      ∧ setPitch (exampleNote 60 14) 0 = .error .assertion
      ∧ pitch2octaveByKey 127 Key.C = .ok 5
      ∧ setPitch (exampleNote 60 15) 127 = .error .assertion
      ∧ setPitch (exampleNote 60 14) 12 = .error .assertion
      ∧ setPitch (exampleNote 60 14) 120 = .error .assertion
      ∧ (∃ n1, setPitch (exampleNote 60 14) 13 = .ok n1 ∧ n1._noteOctave = -4)
      ∧ (∃ n1, setPitch (exampleNote 60 14) 119 = .ok n1 ∧ n1._noteOctave = 4) := by
  refine ⟨by decide, by decide, by decide, by decide, by decide, by decide!, by decide!,
    by decide!, by decide, by decide!, by decide!, by decide!, ?_, ?_⟩
  · exact ⟨⟨13, 14, some Key.C, .V_EIGHTH, ⟨0, 0⟩, QRectF.null, 1, -4, 0, QRectF.null,
      QRectF.null⟩, by decide!, rfl⟩
  · exact ⟨⟨119, 14, some Key.C, .V_EIGHTH, ⟨0, 0⟩, QRectF.null, 1, 4, 0, QRectF.null,
      QRectF.null⟩, by decide!, rfl⟩

end JianpuNote

end Ms

namespace Ms

namespace JianpuNote

/-- C21: for each of the fifteen keys `k` (number of sharps, -7 to 7) the read of
`keyNotePitch` at `k - Key::MIN` is in bounds and yields `60 + ((7 * k) mod 12)`, the
remainder taken non-negative: a pitch from 60 to 71 with the pitch class of the tonic of
the key; and `pitch2octaveByKey` maps that reference pitch, in that key, to octave 0. -/
theorem keyNotePitch_tonic (k : Int) (hmin : Key.MIN ≤ k) (hmax : k ≤ Key.MAX) :
    Key.MIN = -7 ∧ Key.MAX = 7
      ∧ arrayAt keyNotePitch (k - Key.MIN) = .ok (60 + (7 * k) % 12)
      ∧ 60 ≤ 60 + (7 * k) % 12 ∧ 60 + (7 * k) % 12 ≤ 71
      ∧ pitch2octaveByKey (60 + (7 * k) % 12) k = .ok 0 := by
  have hmin2 : (-7 : Int) ≤ k := hmin
  have hmax2 : k ≤ (7 : Int) := hmax
  have hk : k = -7 ∨ k = -6 ∨ k = -5 ∨ k = -4 ∨ k = -3 ∨ k = -2 ∨ k = -1
      ∨ k = 0 ∨ k = 1 ∨ k = 2 ∨ k = 3 ∨ k = 4 ∨ k = 5 ∨ k = 6 ∨ k = 7 := by
    omega
  rcases hk with h | h | h | h | h | h | h | h | h | h | h | h | h | h | h <;> subst h <;>
    decide

/-- C21 witness: E-flat major (three flats) has the reference pitch 63, and pitch 63 is in
octave 0 of that key. -/
theorem keyNotePitch_tonic_witness :
    (Key.MIN ≤ (-3 : Int) ∧ (-3 : Int) ≤ Key.MAX)
      ∧ arrayAt keyNotePitch (-3 - Key.MIN) = .ok 63
      ∧ pitch2octaveByKey 63 (-3) = .ok 0
      ∧ (Key.MIN = -7 ∧ Key.MAX = 7
        ∧ arrayAt keyNotePitch (-3 - Key.MIN) = .ok (60 + (7 * (-3)) % 12)
        ∧ 60 ≤ 60 + (7 * (-3 : Int)) % 12 ∧ 60 + (7 * (-3 : Int)) % 12 ≤ 71
        ∧ pitch2octaveByKey (60 + (7 * (-3)) % 12) (-3) = .ok 0) :=
  ⟨by decide, by decide, by decide, keyNotePitch_tonic (-3) (by decide) (by decide)⟩

end JianpuNote

end Ms

namespace Ms

theorem heightsAbove_zero (notes : List JianpuNote) : heightsAbove notes 0 = 0 := by
  simp [heightsAbove]

/-- The sum of the heights of the notes 1 to `i + 1` is the sum for the notes 1 to `i` plus
the height of note `i + 1`. -/
theorem heightsAbove_succ (notes : List JianpuNote) (i : Nat) (c : JianpuNote)
    (hc : notes[i + 1]? = some c) :
    heightsAbove notes (i + 1) = heightsAbove notes i + c.bbox.height := by
  have h1 : (notes.drop 1)[i]? = some c := by
    rw [List.getElem?_drop, Nat.add_comm]
    exact hc
  simp [heightsAbove, List.take_succ, h1, hc]

/-- The sum of the heights of the notes 1 to `i` depends on the heights of those notes
only. -/
theorem heightsAbove_congr (xs ys : List JianpuNote) (i : Nat)
    (h : ∀ s, 1 ≤ s → s ≤ i →
      (xs[s]?).map (fun a => a.bbox.height) = (ys[s]?).map (fun a => a.bbox.height)) :
    heightsAbove xs i = heightsAbove ys i := by
  simp only [heightsAbove]
  congr 1
  apply List.ext_getElem?
  intro t
  simp only [List.getElem?_map, List.getElem?_take, List.getElem?_drop]
  by_cases ht : t < i
  · simp only [ht, if_true]
    exact h (1 + t) (by omega) (by omega)
  · simp only [ht, if_false]

namespace JianpuChord

/-- The inner loop returns when the indices `j` to `j + count - 1` are notes of the chord;
it subtracts the sum of their heights. -/
theorem subtractHeights_eq (notes : List JianpuNote) :
    ∀ (count j : Nat) (y : qreal), j + count ≤ notes.length →
      subtractHeights notes count j y
        = .ok (y - (((notes.drop j).take count).map (fun a => a.bbox.height)).sum) := by
  intro count
  induction count with
  | zero =>
    intro j y _
    simp [subtractHeights]
  | succ count ih =>
    intro j y h
    have hj : j < notes.length := by omega
    rw [List.drop_eq_getElem_cons hj]
    simp only [subtractHeights, List.getElem?_eq_getElem hj, List.take_succ_cons,
      List.map_cons, List.sum_cons, JianpuNote.height]
    rw [ih (j + 1) _ (by omega)]
    congr 1
    ring

/-- The loop over the notes, started at index `i` on notes that `JianpuNote::layout` accepts:
it returns; the notes before `i` are left as they are; each note from `i` on is replaced by
its laid-out form, placed at x = 0 and at y = the base line less the sum of the heights of
the notes 1 up to itself. -/
theorem noteLoop_spec (tightBoundingRect : Int → QRectF) (spatium : qreal) :
    ∀ (count i : Nat) (cur : List JianpuNote), i + count = cur.length →
      (∀ m a, i ≤ m → cur[m]? = some a →
        ∃ a1, JianpuNote.layout tightBoundingRect a = .ok a1) →
      ∃ rs, noteLoop tightBoundingRect spatium count i cur = .ok rs
        ∧ rs.length = cur.length
        ∧ (∀ s, s < i → rs[s]? = cur[s]?)
        ∧ (∀ m, i ≤ m → m < cur.length →
            ∃ a a1, cur[m]? = some a ∧ JianpuNote.layout tightBoundingRect a = .ok a1
              ∧ rs[m]? = some { a1 with
                  pos := ⟨0, (JianpuNote.NOTE_BASELINE : qreal) * spatium * (1 / 2)
                    - heightsAbove rs m⟩ }) := by
  intro count
  induction count with
  | zero =>
    intro i cur hlen _
    refine ⟨cur, rfl, rfl, fun s _ => rfl, ?_⟩
    intro m h1 h2
    omega
  | succ count ih =>
    intro i cur hlen hlay
    have hi : i < cur.length := by omega
    obtain ⟨note1, hn1⟩ := hlay i cur[i] (le_refl _) (List.getElem?_eq_getElem hi)
    have hsub := subtractHeights_eq (cur.set i note1) i 1
      ((JianpuNote.NOTE_BASELINE : qreal) * spatium * (1 / 2))
      (by rw [List.length_set]; omega)
    have hlay2 : ∀ m a, i + 1 ≤ m →
        ((cur.set i note1).set i { note1 with
          pos := ⟨0, (JianpuNote.NOTE_BASELINE : qreal) * spatium * (1 / 2)
            - heightsAbove (cur.set i note1) i⟩ })[m]? = some a →
        ∃ a1, JianpuNote.layout tightBoundingRect a = .ok a1 := by
      intro m a hm ha
      rw [List.getElem?_set_ne (by omega), List.getElem?_set_ne (by omega)] at ha
      exact hlay m a (by omega) ha
    obtain ⟨rs, hrs, hlen2, hpre, hpost⟩ := ih (i + 1) _
      (by rw [List.length_set, List.length_set]; omega) hlay2
    simp only [List.length_set] at hlen2 hpost
    have hrsi : rs[i]? = some { note1 with
        pos := ⟨0, (JianpuNote.NOTE_BASELINE : qreal) * spatium * (1 / 2)
          - heightsAbove (cur.set i note1) i⟩ } := by
      rw [hpre i (by omega), List.getElem?_set_self (by rw [List.length_set]; exact hi)]
    have hH : heightsAbove (cur.set i note1) i = heightsAbove rs i := by
      apply heightsAbove_congr
      intro s hs1 hs2
      rw [hpre s (by omega)]
      by_cases hsi : s = i
      · rw [hsi, List.getElem?_set_self hi,
          List.getElem?_set_self
            (show i < (cur.set i note1).length by rw [List.length_set]; exact hi)]
        rfl
      · rw [List.getElem?_set_ne (fun h => hsi h.symm), List.getElem?_set_ne (fun h => hsi h.symm),
          List.getElem?_set_ne (fun h => hsi h.symm)]
    refine ⟨rs, ?_, hlen2, ?_, ?_⟩
    · simp only [noteLoop, List.getElem?_eq_getElem hi, hn1, hsub, heightsAbove]
      simp only [heightsAbove] at hrs
      exact hrs
    · intro s hs
      rw [hpre s (by omega), List.getElem?_set_ne (by omega), List.getElem?_set_ne (by omega)]
    · intro m hm hml
      by_cases hmi : m = i
      · subst hmi
        refine ⟨cur[m], note1, List.getElem?_eq_getElem hi, hn1, ?_⟩
        rw [hrsi, hH]
      · obtain ⟨a, a1, ha, hl, hr⟩ := hpost m (by omega) hml
        rw [List.getElem?_set_ne (by omega), List.getElem?_set_ne (by omega)] at ha
        exact ⟨a, a1, ha, hl, hr⟩

end JianpuChord

end Ms

namespace Ms

/-- The top edge of the union of two rectangles that are not null and have non-negative
heights is the upper of the two top edges. -/
theorem QRectF.united_y (a r : QRectF) (ha : a.isNull = false) (hr : r.isNull = false)
    (hah : 0 ≤ a.height) (hrh : 0 ≤ r.height) :
    (a.united r).y = min a.y r.y := by
  simp [QRectF.united, ha, hr, not_lt.mpr hah, not_lt.mpr hrh]

namespace JianpuNote

/-- After `layout`, with a digit box of positive height, the bounding box of a note starts
at the top of the octave-dot box, `OCTAVE_DOTBOX_Y_OFFSET + OCTAVE_DOTBOX_HEIGHT` above the
digit, when the octave is positive, and at the top of the digit box, y = 0, otherwise. -/
theorem layout_bbox_y (tightBoundingRect : Int → QRectF) (n n2 : JianpuNote)
    (h : layout tightBoundingRect n = .ok n2) (hh : 0 < n2._noteNumberBox.height) :
    n2.bbox.y
      = if 0 < n2._noteOctave then
          -((OCTAVE_DOTBOX_Y_OFFSET + OCTAVE_DOTBOX_HEIGHT : Int) : qreal)
        else 0 := by
  obtain ⟨n1, -, hoct, -, hbox, hdot, hbb⟩ := layout_ok tightBoundingRect n n2 h
  rw [← hoct] at hdot
  have hy0 : n2._noteNumberBox.y = 0 := by rw [hbox]
  have hnn : n2._noteNumberBox.isNull = false := by
    have : n2._noteNumberBox.height ≠ 0 := ne_of_gt hh
    simp [QRectF.isNull, this]
  rw [hbb]
  by_cases h0 : n2._noteOctave = 0
  · have hz : (⟨0, 0, 0, 0⟩ : QRectF).isNull = true := by simp [QRectF.isNull]
    rw [hdot]
    simp only [h0, lt_self_iff_false, gt_iff_lt, if_false, QRectF.united, hnn, hz, if_true]
    exact hy0
  · by_cases hneg : n2._noteOctave < 0
    · have hpos : ¬ 0 < n2._noteOctave := by omega
      have hd : n2._octaveDotBox
          = ⟨0, n2._noteNumberBox.y + n2._noteNumberBox.height + OCTAVE_DOTBOX_Y_OFFSET,
              n2._noteNumberBox.width, OCTAVE_DOTBOX_HEIGHT⟩ := by
        rw [hdot]
        simp only [hneg, if_true]
      have hdn : n2._octaveDotBox.isNull = false := by
        rw [hd]
        simp only [QRectF.isNull, OCTAVE_DOTBOX_HEIGHT, OCTAVE_DOT_HEIGHT, OCTAVE_DOT_Y_SPACE]
        norm_num
      have hdh : (0 : qreal) ≤ n2._octaveDotBox.height := by
        rw [hd]
        simp only [OCTAVE_DOTBOX_HEIGHT, OCTAVE_DOT_HEIGHT, OCTAVE_DOT_Y_SPACE]
        norm_num
      rw [QRectF.united_y _ _ hnn hdn (le_of_lt hh) hdh, hy0]
      simp only [hpos, if_false]
      apply min_eq_left
      rw [hd]
      simp only [hy0, OCTAVE_DOTBOX_Y_OFFSET]
      norm_num
      linarith
    · have hpos : 0 < n2._noteOctave := by omega
      have hd : n2._octaveDotBox
          = ⟨0, n2._noteNumberBox.y - OCTAVE_DOTBOX_HEIGHT - OCTAVE_DOTBOX_Y_OFFSET,
              n2._noteNumberBox.width, OCTAVE_DOTBOX_HEIGHT⟩ := by
        rw [hdot]
        simp only [hneg, if_false, gt_iff_lt, hpos, if_true]
      have hdn : n2._octaveDotBox.isNull = false := by
        rw [hd]
        simp only [QRectF.isNull, OCTAVE_DOTBOX_HEIGHT, OCTAVE_DOT_HEIGHT, OCTAVE_DOT_Y_SPACE]
        norm_num
      have hdh : (0 : qreal) ≤ n2._octaveDotBox.height := by
        rw [hd]
        simp only [OCTAVE_DOTBOX_HEIGHT, OCTAVE_DOT_HEIGHT, OCTAVE_DOT_Y_SPACE]
        norm_num
      rw [QRectF.united_y _ _ hnn hdn (le_of_lt hh) hdh, hy0]
      simp only [hpos, if_true]
      rw [hd]
      simp only [hy0, OCTAVE_DOTBOX_HEIGHT, OCTAVE_DOT_HEIGHT, OCTAVE_DOT_Y_SPACE,
        OCTAVE_DOTBOX_Y_OFFSET]
      norm_num

/-- In one key, a pitch at or above a pitch of positive octave has a positive octave. -/
theorem pitch2octaveByKey_pos_mono (p q : Int) (k : Key) (op oq : Int)
    (hp : pitch2octaveByKey p k = .ok op) (hq : pitch2octaveByKey q k = .ok oq)
    (hle : p ≤ q) (hpos : 0 < op) : 0 < oq := by
  cases harr : arrayAt keyNotePitch (k - Key.MIN) with
  | error e => simp [pitch2octaveByKey, harr] at hp
  | ok b =>
    rw [pitch2octaveByKey_eq p k b harr] at hp
    rw [pitch2octaveByKey_eq q k b harr] at hq
    cases hp
    cases hq
    split at hpos <;> split <;> omega

/-- The octave `layout` stores is the one `pitch2octaveByKey` computes from the pitch and
the key of the note; the key is left as it is. -/
theorem layout_octave (tightBoundingRect : Int → QRectF) (n n2 : JianpuNote)
    (h : layout tightBoundingRect n = .ok n2) :
    pitch2octaveByKey n.pitch n.key = .ok n2._noteOctave := by
  obtain ⟨n1, h1, hoct, -, -, -, -⟩ := layout_ok tightBoundingRect n n2 h
  obtain ⟨-, hres, -, -⟩ := setNoteByPitch_ok n n1 _ _ _ h1
  rw [hoct]
  exact hres

end JianpuNote

end Ms

namespace Ms

namespace JianpuChord

/-- C22: for a chord whose notes are stored in ascending pitch order under one key, each
accepted by `JianpuNote::layout` (its assertions pass) with a digit box of positive width
and height, `JianpuChord::layout` returns; every note is its laid-out form moved to its
position; note 0 is at (0, 0) and note `i` is at x = 0 and y = minus the sum of the
bounding-box heights of the notes 1 to `i`; and the bottom edge of the positioned bounding
box of note `i + 1` is at or above the top edge of that of note `i`. -/
theorem layout_stacks_notes (tightBoundingRect : Int → QRectF) (spatium : qreal)
    (notes : List JianpuNote) (k : Key)
    (hlay : ∀ a ∈ notes, ∃ a1, JianpuNote.layout tightBoundingRect a = .ok a1)
    (hkey : ∀ a ∈ notes, a.key = k)
    (hasc : notes.Pairwise (fun a c => a.pitch ≤ c.pitch))
    (hbox : ∀ a ∈ notes, ∀ a1, JianpuNote.layout tightBoundingRect a = .ok a1 →
      0 < a1._noteNumberBox.width ∧ 0 < a1._noteNumberBox.height) :
    ∃ rs, layout tightBoundingRect spatium notes = .ok rs
      ∧ rs.length = notes.length
      ∧ (∀ (i : Nat) (r : JianpuNote), rs[i]? = some r →
          ∃ a a1, notes[i]? = some a ∧ JianpuNote.layout tightBoundingRect a = .ok a1
            ∧ r = { a1 with pos := r.pos })
      ∧ (∀ r : JianpuNote, rs[0]? = some r → r.pos = ⟨0, 0⟩)
      ∧ (∀ (i : Nat) (r : JianpuNote), rs[i]? = some r → r.pos.x = 0 ∧ r.pos.y = -(heightsAbove rs i))
      ∧ (∀ (i : Nat) (a c : JianpuNote), rs[i]? = some a → rs[i + 1]? = some c →
          c.pos.y + c.bbox.bottom ≤ a.pos.y + a.bbox.top) := by
  by_cases hempty : notes = []
  · subst hempty
    refine ⟨[], rfl, rfl, ?_, ?_, ?_, ?_⟩
    · intro i r hr
      simp at hr
    · intro r hr
      simp at hr
    · intro i r hr
      simp at hr
    · intro i a c ha
      simp at ha
  · obtain ⟨rs, hrs, hlen, -, hspec⟩ := noteLoop_spec tightBoundingRect spatium notes.length 0
      notes (by omega) (fun m a _ ha => hlay a (List.getElem?_mem ha))
    have hbase : (JianpuNote.NOTE_BASELINE : qreal) * spatium * (1 / 2) = 0 := by
      simp [JianpuNote.NOTE_BASELINE]
    have hat : ∀ i r, rs[i]? = some r →
        ∃ a a1, notes[i]? = some a ∧ JianpuNote.layout tightBoundingRect a = .ok a1
          ∧ r = { a1 with pos := ⟨0, -(heightsAbove rs i)⟩ } := by
      intro i r hr
      have hi : i < notes.length := by
        rw [← hlen]
        exact (List.getElem?_eq_some.mp hr).1
      obtain ⟨a, a1, ha, hl, hri⟩ := hspec i (Nat.zero_le _) hi
      rw [hr, hbase, zero_sub] at hri
      exact ⟨a, a1, ha, hl, Option.some.inj hri⟩
    have hlayout : layout tightBoundingRect spatium notes = .ok rs := by
      have hne : notes.isEmpty = false := by
        cases notes with
        | nil => exact absurd rfl hempty
        | cons _ _ => rfl
      simp only [layout, hne, Bool.false_eq_true, if_false]
      exact hrs
    refine ⟨rs, hlayout, hlen, ?_, ?_, ?_, ?_⟩
    · intro i r hr
      obtain ⟨a, a1, ha, hl, hreq⟩ := hat i r hr
      refine ⟨a, a1, ha, hl, ?_⟩
      rw [hreq]
    · intro r hr
      obtain ⟨a, a1, -, -, hreq⟩ := hat 0 r hr
      rw [hreq, heightsAbove_zero]
      simp
    · intro i r hr
      obtain ⟨a, a1, -, -, hreq⟩ := hat i r hr
      rw [hreq]
      exact ⟨rfl, rfl⟩
    · intro i a2 c2 ha2 hc2
      obtain ⟨a, a1, ha, hla, hareq⟩ := hat i a2 ha2
      obtain ⟨c, c1, hc, hlc, hcreq⟩ := hat (i + 1) c2 hc2
      have hsucc := heightsAbove_succ rs i c2 hc2
      have hcb : c2.bbox = c1.bbox := by rw [hcreq]
      have hab : a2.bbox = a1.bbox := by rw [hareq]
      have hcy : c2.pos.y = -(heightsAbove rs (i + 1)) := by rw [hcreq]
      have hay : a2.pos.y = -(heightsAbove rs i) := by rw [hareq]
      have hamem : a ∈ notes := List.getElem?_mem ha
      have hcmem : c ∈ notes := List.getElem?_mem hc
      have hya := JianpuNote.layout_bbox_y tightBoundingRect a a1 hla (hbox a hamem a1 hla).2
      have hyc := JianpuNote.layout_bbox_y tightBoundingRect c c1 hlc (hbox c hcmem c1 hlc).2
      have hoa := JianpuNote.layout_octave tightBoundingRect a a1 hla
      have hoc := JianpuNote.layout_octave tightBoundingRect c c1 hlc
      rw [hkey a hamem] at hoa
      rw [hkey c hcmem] at hoc
      have hpitch : a.pitch ≤ c.pitch := by
        obtain ⟨h1l, h1e⟩ := List.getElem?_eq_some.mp ha
        obtain ⟨h2l, h2e⟩ := List.getElem?_eq_some.mp hc
        have := List.pairwise_iff_getElem.mp hasc i (i + 1) h1l h2l (Nat.lt_succ_self i)
        rw [h1e, h2e] at this
        exact this
      have hmono := JianpuNote.pitch2octaveByKey_pos_mono a.pitch c.pitch k _ _ hoa hoc hpitch
      have hle : c1.bbox.y ≤ a1.bbox.y := by
        rw [hya, hyc]
        by_cases hpa : 0 < a1._noteOctave
        · simp only [hpa, hmono hpa, if_true, le_refl]
        · simp only [hpa, if_false]
          split
          · simp only [JianpuNote.OCTAVE_DOTBOX_Y_OFFSET, JianpuNote.OCTAVE_DOTBOX_HEIGHT,
              JianpuNote.OCTAVE_DOT_HEIGHT, JianpuNote.OCTAVE_DOT_Y_SPACE]
            norm_num
          · exact le_refl _
      simp only [QRectF.bottom, QRectF.top]
      rw [hcy, hay, hsucc, hcb, hab]
      rw [hcb] at hsucc
      linarith

/-- C22 witness: the chord of middle C, the E above it and the C one octave higher, with a
10 by 20 font rectangle: the notes come to lie at y = 0, -14 and -64, with bounding boxes
of heights 14, 14 and 50, the last one starting 36 above its digit. -/
theorem layout_stacks_notes_witness :
    layout exampleFont 20 exampleTriad
        = .ok [⟨60, 14, some Key.C, .V_EIGHTH, ⟨0, 0⟩, ⟨0, 0, 10, 14⟩, 1, 0, 0,
              ⟨0, 0, 10, 14⟩, ⟨0, 0, 0, 0⟩⟩,
            ⟨64, 18, some Key.C, .V_EIGHTH, ⟨0, -14⟩, ⟨0, 0, 10, 14⟩, 3, 0, 0,
              ⟨0, 0, 10, 14⟩, ⟨0, 0, 0, 0⟩⟩,
            ⟨72, 14, some Key.C, .V_EIGHTH, ⟨0, -64⟩, ⟨0, -36, 10, 50⟩, 1, 1, 0,
              ⟨0, 0, 10, 14⟩, ⟨0, -36, 10, 26⟩⟩]
      ∧ ∃ rs, layout exampleFont 20 exampleTriad = .ok rs
        ∧ rs.length = exampleTriad.length
        ∧ (∀ (i : Nat) (r : JianpuNote), rs[i]? = some r →
            ∃ a a1, exampleTriad[i]? = some a ∧ JianpuNote.layout exampleFont a = .ok a1
              ∧ r = { a1 with pos := r.pos })
        ∧ (∀ r : JianpuNote, rs[0]? = some r → r.pos = ⟨0, 0⟩)
        ∧ (∀ (i : Nat) (r : JianpuNote), rs[i]? = some r → r.pos.x = 0 ∧ r.pos.y = -(heightsAbove rs i))
        ∧ (∀ (i : Nat) (a c : JianpuNote), rs[i]? = some a → rs[i + 1]? = some c →
            c.pos.y + c.bbox.bottom ≤ a.pos.y + a.bbox.top) :=
  ⟨by decide!,
    layout_stacks_notes exampleFont 20 exampleTriad Key.C
      (by
        intro a ha
        simp only [exampleTriad, List.mem_cons, List.mem_singleton, List.not_mem_nil,
          or_false] at ha
        rcases ha with rfl | rfl | rfl
        · exact ⟨exampleMiddle, by decide!⟩
        · exact ⟨⟨64, 18, some Key.C, .V_EIGHTH, ⟨0, 0⟩, ⟨0, 0, 10, 14⟩, 3, 0, 0,
            ⟨0, 0, 10, 14⟩, ⟨0, 0, 0, 0⟩⟩, by decide!⟩
        · exact ⟨exampleHigh, by decide!⟩)
      (by decide!) (by decide!)
      (by
        intro a ha a1 h
        have hb := (JianpuNote.layout_ok exampleFont a a1 h).choose_spec.2.2.2.1
        rw [hb]
        constructor
        · simp [exampleFont]
        · simp [exampleFont, JianpuNote.FONT_BBOX_HEIGHT_RATIO])⟩

end JianpuChord

end Ms
